import Mathlib

/-!
TreeIt: the layout engine and the endpoint trimming of `src/main.cpp`.

A shallow embedding of the binary-tree layout of TreeIt (`init`,
`getNodePosition`), of its command line (`handleArguments`, `main`) and of
`trimLineEndpoint`, followed by the properties proved about them.

Conventions of the embedding.

* The program keeps its configuration and its results in global variables.
  They are gathered in the record `State`; a C++ function that reads or
  writes globals becomes a function taking (and returning) a `State`.
* A `float` is a rational number that the IEEE binary32 format represents.
  Every `float` operation of the source is the exact operation followed by
  `roundFloat`, the rounding to the nearest `float`, ties to even; the
  conversion of an `int` to `float` is `intToFloat`.  Overflow to infinity
  and subnormal numbers are not modelled: the values of the layout are
  multiples of one half below `2 ^ 100`.  `trimLineEndpoint` needs a square
  root and is generic in the field, the square root of raymath's
  `Vector2Length` being a parameter; its properties are read over the reals.
* An `int` is a 32-bit integer.  The globals hold integers, and every `int`
  addition, subtraction and multiplication of the layout is followed by
  `wrapInt`, the two's-complement wrap-around: signed overflow, undefined in
  C++, is given the value that the compiled program computes.  A `float` or
  `double` outside the `int` range converts to `INT_MIN`, as the x86
  conversion instruction does.
* Raylib calls (window, drawing, export) do not touch the globals modelled
  here and are left out.
-/

namespace TreeIt

/-! ## Data model -/

/-- Raylib's `Vector2`, over a type of coordinates. -/
structure Vector2 (K : Type) where
  x : K
  y : K
  deriving DecidableEq, Repr

/-- The `Node` of the source: a position and a label. -/
structure Node where
  position : Vector2 ℚ
  value : String
  deriving DecidableEq, Repr

/-- The `Line` of the source (its field `end` is written `end_`). -/
structure Line where
  start : Vector2 ℚ
  end_ : Vector2 ℚ
  deriving DecidableEq, Repr

/-- Raylib's `Color`: four `unsigned char` channels. -/
structure Color where
  r : ℕ
  g : ℕ
  b : ℕ
  a : ℕ
  deriving DecidableEq, Repr

/-- The global variables of `main.cpp` (the camera apart). -/
structure State where
  values : List String
  leafSpacing : ℤ
  nodeRadius : ℤ
  lineThickness : ℤ
  textSize : ℤ
  isTakingScreenshot : Bool
  backgroundColor : Color
  nodeColor : Color
  lineColor : Color
  textColor : Color
  windowWidth : ℤ
  windowHeight : ℤ
  nodes : List Node
  lines : List Line
  treeHeight : ℤ
  deriving DecidableEq, Repr

/-- Raylib's `WHITE`. -/
def WHITE : Color := ⟨255, 255, 255, 255⟩

/-- Raylib's `BLACK`. -/
def BLACK : Color := ⟨0, 0, 0, 255⟩

/-- Raylib's `BLANK` (transparent). -/
def BLANK : Color := ⟨0, 0, 0, 0⟩

/-- The globals as their initialisers leave them at program start
(variables without an initialiser are zero-initialised). -/
def State.initial : State where
  values := []
  leafSpacing := 40
  nodeRadius := 20
  lineThickness := 3
  textSize := 20
  isTakingScreenshot := true
  backgroundColor := WHITE
  nodeColor := BLACK
  lineColor := BLACK
  textColor := BLACK
  windowWidth := 0
  windowHeight := 0
  nodes := []
  lines := []
  treeHeight := 0

/-! ## Numeric helpers -/

/-- The result of a 32-bit `int` operation whose exact value is `z`:
two's-complement wrap-around into `[-2 ^ 31, 2 ^ 31 - 1]`. -/
def wrapInt (z : ℤ) : ℤ :=
  (z + 2147483648) % 4294967296 - 2147483648

/-- Rounding to the nearest integer, a tie going to the even one. -/
def roundHalfEven (q : ℚ) : ℤ :=
  if q - ⌊q⌋ < 1 / 2 then ⌊q⌋
  else if 1 / 2 < q - ⌊q⌋ then ⌊q⌋ + 1
  else if ⌊q⌋ % 2 = 0 then ⌊q⌋ else ⌊q⌋ + 1

/-- The `float` nearest to `q` (IEEE binary32: a significand of 24 bits,
round to nearest, ties to even): `q` is rounded to a multiple of
`2 ^ (e - 23)`, where `2 ^ e ≤ |q| < 2 ^ (e + 1)`. -/
def roundFloat (q : ℚ) : ℚ :=
  if q = 0 then 0
  else roundHalfEven (q / 2 ^ (Int.log 2 |q| - 23)) * 2 ^ (Int.log 2 |q| - 23)

/-- Conversion of an `int` to `float`. -/
def intToFloat (z : ℤ) : ℚ :=
  roundFloat z

/-- Conversion of a `float` or `double` to `int`: truncation toward zero;
`INT_MIN` when the truncated value is not an `int`. -/
def floatToInt (q : ℚ) : ℤ :=
  let truncated : ℤ := if 0 ≤ q then ⌊q⌋ else ⌈q⌉
  if -2147483648 ≤ truncated ∧ truncated ≤ 2147483647 then truncated else -2147483648

/-- The call `std::pow(2, e)` for an `int` exponent `e`: a power of two, which
a `double` holds exactly. -/
def pow2 (e : ℤ) : ℚ :=
  (2 : ℚ) ^ e

/-- The expression `std::floor(std::log2(n))` for a positive integer `n`.
(`Nat.log 2 0 = 0`, whereas the source is undefined at 0: `log2(0)` is minus
infinity.  `init` is only reached with a non-empty list, see `main`.) -/
def floorLog2 (n : ℕ) : ℕ :=
  Nat.log 2 n

/-! ## Layout engine -/

/-- The tree level of a heap index: `level` in `getNodePosition`. -/
def levelOf (index : ℕ) : ℕ :=
  floorLog2 (index + 1)

/-- The function `getNodePosition` of the source.  It reads the globals
`treeHeight`, `leafSpacing` and `nodeRadius`.  The `int` expressions are
wrapped and every `float` operation is rounded, in the order in which the
source evaluates them: `padding` is `(int * int) / 2.0f`, `x` is
`padding + ((distance * padding) * 2)` and `y` is
`(level * (leafSpacing + nodeRadius)) + (nodeRadius * 1.5f)`. -/
def getNodePosition (st : State) (index : ℕ) : Vector2 ℚ :=
  let level : ℤ := levelOf index
  let leftMostAtLevel : ℤ := floatToInt (pow2 level - 1)
  let distanceFromLeftmost : ℤ := wrapInt (index - leftMostAtLevel)
  let padding : ℚ :=
    roundFloat (intToFloat (wrapInt (floatToInt (pow2 (wrapInt (st.treeHeight - level))) *
      wrapInt (st.leafSpacing + st.nodeRadius))) / 2)
  let x : ℚ :=
    roundFloat (padding + roundFloat (roundFloat (intToFloat distanceFromLeftmost * padding) * 2))
  let y : ℚ :=
    roundFloat (intToFloat (wrapInt (level * wrapInt (st.leafSpacing + st.nodeRadius))) +
      roundFloat (intToFloat st.nodeRadius * (3 / 2)))
  ⟨x, y⟩

/-- The index of the heap parent, `std::floor((i - 1) / 2)` on `size_t`. -/
def parentIndex (i : ℕ) : ℕ :=
  (i - 1) / 2

/-- One iteration of the loop of `init`, for the index `i`. -/
def initStep (st : State) (i : ℕ) : State :=
  let node : Node := { value := st.values.getD i "", position := getNodePosition st i }
  let st1 : State :=
    if i ≠ 0 then
      let line : Line := { start := node.position, end_ := getNodePosition st (parentIndex i) }
      { st with lines := st.lines ++ [line] }
    else st
  { st1 with nodes := st1.nodes ++ [node] }

/-- The loop `for(size_t i{values.size()}; i--> 0;)` of `init`: the argument
is the value of `i` before the test, so the body runs for `i - 1`, ..., `0`. -/
def initLoop (st : State) : ℕ → State
  | 0 => st
  | i + 1 => initLoop (initStep st i) i

/-- The function `init` of the source, up to the window creation.  The
window size is the `float` sum of a coordinate and of the spacing, converted
to `int`. -/
def init (st : State) : State :=
  let st1 : State := { st with treeHeight := floorLog2 st.values.length }
  let st2 : State := initLoop st1 st1.values.length
  let rightMostAtLeaveLevel : ℤ := floatToInt (pow2 (wrapInt (st2.treeHeight + 1)) - 2)
  let rightMostPosition : Vector2 ℚ := getNodePosition st2 rightMostAtLeaveLevel.toNat
  { st2 with
    windowWidth := floatToInt (roundFloat (rightMostPosition.x + intToFloat st2.leafSpacing))
    windowHeight := floatToInt (roundFloat (rightMostPosition.y + intToFloat st2.leafSpacing)) }

/-! ## Command line -/

/-- The test `isspace` of the C locale, used by `strtol` to skip blanks. -/
def isSpaceChar (c : Char) : Bool :=
  c.toNat = 32 || (9 ≤ c.toNat && c.toNat ≤ 13)

/-- The value of a run of decimal digits. -/
def digitsValue (digits : List Char) : ℕ :=
  digits.foldl (fun acc c => 10 * acc + (c.toNat - 48)) 0

/-- The library function `std::stoi` in base 10: blanks are skipped, a sign
is optional, the longest run of digits is converted and what follows is
ignored.  `none` stands for the two exceptions: `std::invalid_argument`
(no digit) and `std::out_of_range` (the value does not fit a 32-bit `int`). -/
def stoi (valueString : String) : Option ℤ :=
  let trimmed := valueString.data.dropWhile isSpaceChar
  let signed : Bool × List Char :=
    match trimmed with
    | c :: cs => if c = '-' then (true, cs) else if c = '+' then (false, cs) else (false, trimmed)
    | [] => (false, trimmed)
  let digits := signed.2.takeWhile Char.isDigit
  if digits = [] then none
  else
    let magnitude : ℤ := digitsValue digits
    let tempValue : ℤ := if signed.1 then -magnitude else magnitude
    if tempValue < -2147483648 ∨ 2147483647 < tempValue then none else some tempValue

/-- The lambda `parseValue` of `handleArguments` at an `int` target: the
parsed value to store, or `none` when `std::stoi` throws (the lambda then
returns `false`). -/
def parseValue (valueString : String) : Option ℤ :=
  stoi valueString

/-- The lambda `parseValue` at an `unsigned char` target (a colour channel):
the value is reduced modulo 256 by `static_cast<unsigned char>`. -/
def parseValueChannel (valueString : String) : Option ℕ :=
  (stoi valueString).map fun tempValue => (tempValue % 256).toNat

/-- The loop `while(std::getline(substringStream, thisValue, ','))`: the text
is cut at every comma, and no element is produced for an empty remainder
(so neither for an empty text nor after a trailing comma). -/
def getlineAll : List Char → List Char → List String
  | [], thisValue => if thisValue = [] then [] else [String.mk thisValue]
  | c :: cs, thisValue =>
    if c = ',' then String.mk thisValue :: getlineAll cs []
    else getlineAll cs (thisValue ++ [c])

/-- The elements of a `--list=` argument: `argument.substr(7)` cut at commas. -/
def listElements (argument : String) : List String :=
  getlineAll (argument.data.drop 7) []

/-- The three `parseValue` calls of a colour option, in order; a channel
parsed before a failure stays written.  The result is the updated colour and
whether all three calls succeeded. -/
def parseColor (color : Color) (red green blue : String) : Bool × Color :=
  match parseValueChannel red with
  | none => (false, color)
  | some r =>
    let color1 : Color := { color with r := r }
    match parseValueChannel green with
    | none => (false, color1)
    | some g =>
      let color2 : Color := { color1 with g := g }
      match parseValueChannel blue with
      | none => (false, color2)
      | some b => (true, { color2 with b := b })

/-- The test `argument.find("--list=") == 0` of `handleArguments`. -/
def isListArgument (argument : String) : Bool :=
  "--list=".data.isPrefixOf argument.data

/-- The body of the loop of `handleArguments` for `argument = arguments[i]`,
`rest` being the arguments that follow it, so that `i + 1 < argumentsCount`
is `1 ≤ rest.length` and the first `arguments[++i]` is `rest[0]`.  The result
is the globals after the body, together with `none` where the source returns
`false`, and otherwise the number of `++i` that the body executed. -/
def handleArgument (argument : String) (rest : List String) (st : State) : Option ℕ × State :=
  if argument = "--help" ∨ argument = "-h" then
    (some 0, st)
  else if argument = "--disable-image-export" ∨ argument = "-d" then
    (some 0, { st with isTakingScreenshot := false })
  else if argument = "--node-spacing" ∧ 1 ≤ rest.length then
    match parseValue (rest.getD 0 "") with
    | some v => (some 1, { st with leafSpacing := v })
    | none => (none, st)
  else if argument = "--node-radius" ∧ 1 ≤ rest.length then
    match parseValue (rest.getD 0 "") with
    | some v => (some 1, { st with nodeRadius := v })
    | none => (none, st)
  else if argument = "--line-thickness" ∧ 1 ≤ rest.length then
    match parseValue (rest.getD 0 "") with
    | some v => (some 1, { st with lineThickness := v })
    | none => (none, st)
  else if argument = "--label-size" ∧ 1 ≤ rest.length then
    match parseValue (rest.getD 0 "") with
    | some v => (some 1, { st with textSize := v })
    | none => (none, st)
  else if argument = "--node-color" ∧ 3 ≤ rest.length then
    match parseColor st.nodeColor (rest.getD 0 "") (rest.getD 1 "") (rest.getD 2 "") with
    | (true, color) => (some 3, { st with nodeColor := color })
    | (false, color) => (none, { st with nodeColor := color })
  else if argument = "--line-color" ∧ 3 ≤ rest.length then
    match parseColor st.lineColor (rest.getD 0 "") (rest.getD 1 "") (rest.getD 2 "") with
    | (true, color) => (some 3, { st with lineColor := color })
    | (false, color) => (none, { st with lineColor := color })
  else if argument = "--label-color" ∧ 3 ≤ rest.length then
    match parseColor st.textColor (rest.getD 0 "") (rest.getD 1 "") (rest.getD 2 "") with
    | (true, color) => (some 3, { st with textColor := color })
    | (false, color) => (none, { st with textColor := color })
  else if argument = "--transparent-background" ∨ argument = "-t" then
    (some 0, { st with backgroundColor := BLANK })
  else if isListArgument argument then
    (some 0, { st with values := st.values ++ listElements argument })
  else
    (none, st)

/-- The loop `for(size_t i{1}; i < argumentsCount; i++)` of `handleArguments`,
over the arguments from the index `i` on.  The first argument counts the
arguments already consumed by a `++i` of the body, which the loop passes
over.  The result is `false` where the body returns `false`, and `true` when
the loop ends. -/
def handleArgumentsLoop : ℕ → List String → State → Bool × State
  | _, [], st => (true, st)
  | consumed + 1, _ :: rest, st => handleArgumentsLoop consumed rest st
  | 0, argument :: rest, st =>
    match handleArgument argument rest st with
    | (none, st1) => (false, st1)
    | (some consumed, st1) => handleArgumentsLoop consumed rest st1

/-- The function `handleArguments` of the source: `arguments` is the whole of
`argv`, the program name included, and `argumentsCount` its length. -/
def handleArguments (arguments : List String) (st : State) : Bool × State :=
  let argumentsCount := arguments.length
  match handleArgumentsLoop 0 (arguments.drop 1) st with
  | (false, st1) => (false, st1)
  | (true, st1) => (decide (1 < argumentsCount) && !st1.values.isEmpty, st1)

/-- The function `main` of the source: its exit status and the globals when
it returns.  `init` runs only when `handleArguments` returned `true`; the
export or the display that follows does not change the globals modelled. -/
def main (arguments : List String) (st : State) : ℕ × State :=
  match handleArguments arguments st with
  | (false, st1) => (1, st1)
  | (true, st1) => (0, init st1)

/-! ## Geometry utility -/

/-- Raymath's `Vector2Subtract`. -/
def Vector2Subtract {K : Type} [Sub K] (v1 v2 : Vector2 K) : Vector2 K :=
  ⟨v1.x - v2.x, v1.y - v2.y⟩

/-- Raymath's `Vector2Add`. -/
def Vector2Add {K : Type} [Add K] (v1 v2 : Vector2 K) : Vector2 K :=
  ⟨v1.x + v2.x, v1.y + v2.y⟩

/-- Raymath's `Vector2Scale`. -/
def Vector2Scale {K : Type} [Mul K] (v : Vector2 K) (scale : K) : Vector2 K :=
  ⟨v.x * scale, v.y * scale⟩

/-- Raymath's `Vector2Length`, `sqrtf(v.x*v.x + v.y*v.y)`; the square root
function is a parameter. -/
def Vector2Length {K : Type} [Add K] [Mul K] (sqrtf : K → K) (v : Vector2 K) : K :=
  sqrtf (v.x * v.x + v.y * v.y)

/-- The function `trimLineEndpoint` of the source, over a field of
coordinates; it reads the global `nodeRadius`. -/
def trimLineEndpoint {K : Type} [Field K] [DecidableEq K] (sqrtf : K → K) (st : State)
    (from_ to_ : Vector2 K) : Vector2 K :=
  let direction := Vector2Subtract to_ from_
  let length := Vector2Length sqrtf direction
  if length = 0 then from_
  else
    let normalizedDirection := Vector2Scale direction ((st.nodeRadius : K) / length)
    Vector2Add from_ normalizedDirection

/-! ## Definitions used by the statements -/

/-- The node that `init` builds for the index `i`. -/
def nodeAt (st : State) (i : ℕ) : Node :=
  { value := st.values.getD i "", position := getNodePosition st i }

/-- The line that `init` builds for the non-root index `i`. -/
def lineAt (st : State) (i : ℕ) : Line :=
  { start := getNodePosition st i, end_ := getNodePosition st (parentIndex i) }

/-- The globals that `init` starts its loop from. -/
def withHeight (st : State) : State :=
  { st with treeHeight := floorLog2 st.values.length }

/-- Twice the in-order rank of the index `i` in a tree of height `H`,
shifted by `2 ^ (H + 1)`: the abscissa of `i` is an affine function of it
(see `getNodePosition_x`). -/
def slot (H i : ℕ) : ℕ :=
  2 ^ (H - levelOf i) * (2 * i + 3)

/-- The globals after parsing `--list=A,B,C` with the default options. -/
def sampleState : State :=
  { State.initial with values := ["A", "B", "C"] }

/-- The heap subtree rooted at the index `root`: the index itself, and the
children `2 * j + 1` and `2 * j + 2` of every index `j` of the subtree. -/
inductive InSubtree (root : ℕ) : ℕ → Prop
  | self : InSubtree root root
  | left {j : ℕ} : InSubtree root j → InSubtree root (2 * j + 1)
  | right {j : ℕ} : InSubtree root j → InSubtree root (2 * j + 2)

/-- A single node whose radius, 30, exceeds the spacing, 10. -/
def wideNodeState : State :=
  { State.initial with values := ["A"], leafSpacing := 10, nodeRadius := 30 }

/-- The result of a loop body of `handleArguments` run from `st` has the
`nodes` and `lines` of `st`. -/
def KeepsCollections (st : State) (result : Option ℕ × State) : Prop :=
  result.2.nodes = st.nodes ∧ result.2.lines = st.lines

/-- The point `p` lies on the segment from `a` to `b`. -/
def OnSegment (a b p : Vector2 ℝ) : Prop :=
  ∃ t : ℝ, 0 ≤ t ∧ t ≤ 1 ∧ p.x = a.x + t * (b.x - a.x) ∧ p.y = a.y + t * (b.y - a.y)

/-- The result of a loop body of `handleArguments` run from `st` on
`argument` has the `values` of `st`, unless the argument is a `--list=` one,
which appends its elements. -/
def KeepsValues (argument : String) (st : State) (result : Option ℕ × State) : Prop :=
  result.2.values = st.values ∨
    (isListArgument argument = true ∧ result.2.values = st.values ++ listElements argument)

/-- Coordinates changed by the function `f`. -/
def Vector2.map {K L : Type} (f : K → L) (v : Vector2 K) : Vector2 L :=
  ⟨f v.x, f v.y⟩

/-- A single node with the default spacing, 40, and the odd radius 25. -/
def oddRadiusState : State :=
  { State.initial with values := ["A"], nodeRadius := 25 }

/-- The globals after parsing `--list=A` with the default options. -/
def singleState : State :=
  { State.initial with values := ["A"] }

/-- Three nodes with the spacing equal to the radius, 20. -/
def touchingState : State :=
  { State.initial with values := ["A", "B", "C"], leafSpacing := 20, nodeRadius := 20 }

/-- The point `p` is in the closed disc of centre `c` and radius `r`. -/
def InDisc (c : Vector2 ℚ) (r : ℤ) (p : Vector2 ℝ) : Prop :=
  (p.x - (c.x : ℝ)) ^ 2 + (p.y - (c.y : ℝ)) ^ 2 ≤ (r : ℝ) ^ 2

/-- The point `p` is in the open disc of centre `c` and radius `r`. -/
def InOpenDisc (c : Vector2 ℚ) (r : ℤ) (p : Vector2 ℝ) : Prop :=
  (p.x - (c.x : ℝ)) ^ 2 + (p.y - (c.y : ℝ)) ^ 2 < (r : ℝ) ^ 2

/-- Eight values with spacing `2 ^ 30 - 256` and radius 256, so that the
level step `spacing + nodeRadius` is `2 ^ 30` and its multiples overflow the
32-bit `int`. -/
def overflowState : State :=
  { State.initial with
    values := ["1", "2", "3", "4", "5", "6", "7", "8"]
    leafSpacing := 1073741568
    nodeRadius := 256 }

/-- The globals after the options `--node-spacing`, `--node-radius` and
`--list=` have stored a spacing, a radius and a value list. -/
def configuredState (spacing radius : ℤ) (elements : List String) : State :=
  { State.initial with leafSpacing := spacing, nodeRadius := radius, values := elements }

/-- A single node with spacing `3 * 2 ^ 29` and radius `2 ^ 28`: no `int`
expression overflows and every `float` is exact, but the window width
exceeds the `int` range. -/
def hugeState : State :=
  { State.initial with values := ["A"], leafSpacing := 1610612736, nodeRadius := 268435456 }

/-- Three values with spacing = nodeRadius = 16777210: an abscissa of the
layout is not a `float`. -/
def roundingState : State :=
  { State.initial with
    values := ["1", "2", "3"], leafSpacing := 16777210, nodeRadius := 16777210 }

/-- Three values with spacing 16777216 and radius 1: the level step,
16777217, is not a `float`. -/
def stepState : State :=
  { State.initial with values := ["1", "2", "3"], leafSpacing := 16777216, nodeRadius := 1 }

/-! # Theorems -/

/-! ## Levels of heap indices -/

theorem levelOf_le_self (i : ℕ) : 2 ^ levelOf i ≤ i + 1 :=
  Nat.pow_log_le_self 2 (Nat.succ_ne_zero i)

theorem levelOf_lt_succ (i : ℕ) : i + 1 < 2 ^ (levelOf i + 1) :=
  Nat.lt_pow_succ_log_self (by decide) (i + 1)

theorem levelOf_eq_of_bounds {i l : ℕ} (h1 : 2 ^ l ≤ i + 1) (h2 : i + 1 < 2 ^ (l + 1)) :
    levelOf i = l :=
  Nat.log_eq_of_pow_le_of_lt_pow h1 h2

theorem levelOf_le_floorLog2 {i count : ℕ} (h : i < count) : levelOf i ≤ floorLog2 count :=
  Nat.log_mono_right h

theorem levelOf_mono {i j : ℕ} (h : i ≤ j) : levelOf i ≤ levelOf j :=
  Nat.log_mono_right (Nat.succ_le_succ h)

theorem levelOf_left (i : ℕ) : levelOf (2 * i + 1) = levelOf i + 1 := by
  apply levelOf_eq_of_bounds
  · have := levelOf_le_self i
    rw [pow_succ]; omega
  · have := levelOf_lt_succ i
    rw [pow_succ]; omega

theorem levelOf_right (i : ℕ) : levelOf (2 * i + 2) = levelOf i + 1 := by
  apply levelOf_eq_of_bounds
  · have := levelOf_le_self i
    rw [pow_succ]; omega
  · have := levelOf_lt_succ i
    rw [pow_succ]; omega

theorem levelOf_parentIndex {i : ℕ} (h : 1 ≤ i) : levelOf (parentIndex i) + 1 = levelOf i := by
  rcases Nat.even_or_odd i with ⟨k, hk⟩ | ⟨k, hk⟩
  · have hi : i = 2 * (k - 1) + 2 := by omega
    have hp : parentIndex i = k - 1 := by unfold parentIndex; omega
    rw [hp, hi, levelOf_right]
  · have hp : parentIndex i = k := by unfold parentIndex; omega
    rw [hp, hk, levelOf_left]

theorem wrapInt_of_range {z : ℤ} (h1 : -2147483648 ≤ z) (h2 : z ≤ 2147483647) : wrapInt z = z := by
  unfold wrapInt
  omega

theorem roundHalfEven_intCast (z : ℤ) : roundHalfEven (z : ℚ) = z := by
  unfold roundHalfEven
  simp

theorem roundFloat_zero : roundFloat 0 = 0 := by
  simp [roundFloat]

theorem log_two_mul_zpow {a : ℕ} (ha : 0 < a) (k : ℤ) :
    Int.log 2 ((a : ℚ) * 2 ^ k) = (Nat.log 2 a : ℤ) + k := by
  have hq : (0 : ℚ) < (a : ℚ) * 2 ^ k := by positivity
  have h1 : (2 : ℚ) ^ Nat.log 2 a ≤ a := by
    exact_mod_cast Nat.pow_log_le_self 2 (Nat.pos_iff_ne_zero.mp ha)
  have h2 : (a : ℚ) < 2 ^ (Nat.log 2 a + 1) := by
    exact_mod_cast Nat.lt_pow_succ_log_self (by decide : 1 < 2) a
  have hk : (0 : ℚ) < 2 ^ k := by positivity
  apply le_antisymm
  · have : Int.log 2 ((a : ℚ) * 2 ^ k) < (Nat.log 2 a : ℤ) + k + 1 := by
      rw [← Int.lt_zpow_iff_log_lt (by decide) hq]
      rw [show ((Nat.log 2 a : ℤ) + k + 1) = ((Nat.log 2 a + 1 : ℕ) : ℤ) + k by push_cast; ring]
      rw [zpow_add₀ (by norm_num), zpow_natCast]
      push_cast
      exact mul_lt_mul_of_pos_right h2 hk
    omega
  · rw [← Int.zpow_le_iff_le_log (by decide) hq, zpow_add₀ (by norm_num), zpow_natCast]
    push_cast
    exact mul_le_mul_of_nonneg_right h1 (le_of_lt hk)

/-- A number with a 24-bit integer significand is a `float`. -/
theorem roundFloat_representable (n k : ℤ) (hn : |n| < 16777216) :
    roundFloat ((n : ℚ) * 2 ^ k) = (n : ℚ) * 2 ^ k := by
  by_cases h0 : n = 0
  · subst h0
    simp [roundFloat]
  have hk : (2 : ℚ) ^ k ≠ 0 := by positivity
  have hq0 : (n : ℚ) * 2 ^ k ≠ 0 := mul_ne_zero (by exact_mod_cast h0) hk
  have ha : 0 < n.natAbs := Int.natAbs_pos.mpr h0
  have habs : |(n : ℚ) * 2 ^ k| = (n.natAbs : ℚ) * 2 ^ k := by
    rw [abs_mul, abs_of_pos (by positivity : (0 : ℚ) < 2 ^ k)]
    congr 1
    rw [Nat.cast_natAbs, Int.cast_abs]
  have hL : Nat.log 2 n.natAbs ≤ 23 := by
    have : n.natAbs < 2 ^ 24 := by
      have := Int.abs_eq_natAbs n
      omega
    have := Nat.log_lt_of_lt_pow (Nat.pos_iff_ne_zero.mp ha) this
    omega
  unfold roundFloat
  rw [if_neg hq0, habs, log_two_mul_zpow ha]
  obtain ⟨m, hm⟩ : ∃ m : ℕ, (Nat.log 2 n.natAbs : ℤ) + m = 23 := ⟨23 - Nat.log 2 n.natAbs, by omega⟩
  have hexp : (Nat.log 2 n.natAbs : ℤ) + k - 23 = k - m := by omega
  rw [hexp]
  have hdiv : (n : ℚ) * 2 ^ k / 2 ^ (k - (m : ℤ)) = ((n * 2 ^ m : ℤ) : ℚ) := by
    rw [zpow_sub₀ (by norm_num), zpow_natCast]
    push_cast
    field_simp
    ring
  rw [hdiv, roundHalfEven_intCast]
  rw [zpow_sub₀ (by norm_num), zpow_natCast]
  push_cast
  field_simp
  ring

theorem roundFloat_intCast (z : ℤ) (hz : |z| < 16777216) : roundFloat (z : ℚ) = z := by
  have := roundFloat_representable z 0 hz
  simpa using this

theorem roundFloat_half (z : ℤ) (hz : |z| < 16777216) : roundFloat ((z : ℚ) / 2) = (z : ℚ) / 2 := by
  have := roundFloat_representable z (-1) hz
  rw [zpow_neg_one] at this
  rw [div_eq_mul_inv]
  exact this

theorem intToFloat_of_small (z : ℤ) (hz : |z| < 16777216) : intToFloat z = z :=
  roundFloat_intCast z hz

theorem floatToInt_intCast (z : ℤ) (h1 : -2147483648 ≤ z) (h2 : z ≤ 2147483647) :
    floatToInt (z : ℚ) = z := by
  unfold floatToInt
  split <;> simp [h1, h2]

theorem floatToInt_half {N : ℤ} (hN : 0 ≤ N) (h2 : N ≤ 4294967295) :
    floatToInt ((N : ℚ) / 2) = N / 2 := by
  have h0 : (0 : ℚ) ≤ (N : ℚ) / 2 := by
    have : (0 : ℚ) ≤ N := by exact_mod_cast hN
    positivity
  have hf : ⌊(N : ℚ) / 2⌋ = N / 2 := by
    exact_mod_cast Rat.floor_intCast_div_natCast N 2
  unfold floatToInt
  simp only [if_pos h0, hf]
  rw [if_pos]
  omega

theorem pow2_natCast (n : ℕ) : pow2 (n : ℤ) = ((2 ^ n : ℤ) : ℚ) := by
  simp [pow2]

theorem two_pow_le_of_le {n m : ℕ} (h : n ≤ m) : (2 : ℤ) ^ n ≤ 2 ^ m :=
  pow_le_pow_right₀ (by norm_num) h

theorem floatToInt_pow2 {n : ℕ} (hn : n ≤ 30) : floatToInt (pow2 (n : ℤ)) = 2 ^ n := by
  have h1 : (0 : ℤ) < 2 ^ n := by positivity
  have h2 : (2 : ℤ) ^ n ≤ 2 ^ 30 := two_pow_le_of_le hn
  rw [pow2_natCast, floatToInt_intCast _ (by omega) (by omega)]

theorem floatToInt_pow2_sub_natCast {n : ℕ} (hn : n ≤ 30) {c : ℤ} (h0 : 0 ≤ c)
    (hc : c ≤ 2147483647) : floatToInt (pow2 (n : ℤ) - c) = 2 ^ n - c := by
  have h1 : (0 : ℤ) < 2 ^ n := by positivity
  have h2 : (2 : ℤ) ^ n ≤ 2 ^ 30 := two_pow_le_of_le hn
  rw [pow2_natCast, ← Int.cast_sub, floatToInt_intCast _ (by omega) (by omega)]

/-! ## The loop of `init` -/

theorem getNodePosition_congr {st st1 : State} (h1 : st1.treeHeight = st.treeHeight)
    (h2 : st1.leafSpacing = st.leafSpacing) (h3 : st1.nodeRadius = st.nodeRadius) (i : ℕ) :
    getNodePosition st1 i = getNodePosition st i := by
  simp only [getNodePosition, h1, h2, h3]

theorem nodeAt_congr {st st1 : State} (h0 : st1.values = st.values)
    (h1 : st1.treeHeight = st.treeHeight) (h2 : st1.leafSpacing = st.leafSpacing)
    (h3 : st1.nodeRadius = st.nodeRadius) (i : ℕ) : nodeAt st1 i = nodeAt st i := by
  simp only [nodeAt, h0, getNodePosition_congr h1 h2 h3]

theorem lineAt_congr {st st1 : State} (h1 : st1.treeHeight = st.treeHeight)
    (h2 : st1.leafSpacing = st.leafSpacing) (h3 : st1.nodeRadius = st.nodeRadius) (i : ℕ) :
    lineAt st1 i = lineAt st i := by
  simp only [lineAt, getNodePosition_congr h1 h2 h3]

theorem initStep_zero (st : State) :
    initStep st 0 = { st with nodes := st.nodes ++ [nodeAt st 0] } := by
  simp [initStep, nodeAt]

theorem initStep_succ (st : State) (i : ℕ) :
    initStep st (i + 1) =
      { st with lines := st.lines ++ [lineAt st (i + 1)]
                nodes := st.nodes ++ [nodeAt st (i + 1)] } := by
  simp [initStep, nodeAt, lineAt]

/-- What the loop of `init` leaves in the globals: the nodes of the indices
`n - 1`, ..., `0` and the lines of the indices `n - 1`, ..., `1`, appended in
this order, everything else unchanged. -/
theorem initLoop_eq (n : ℕ) (st : State) :
    initLoop st n =
      { st with
        nodes := st.nodes ++ (List.range n).reverse.map (nodeAt st)
        lines := st.lines ++ (List.range (n - 1)).reverse.map (fun k => lineAt st (k + 1)) } := by
  induction n generalizing st with
  | zero => simp [initLoop]
  | succ n ih =>
    rw [initLoop, ih]
    cases n with
    | zero => simp [initStep_zero, nodeAt_congr, List.range_succ]
    | succ m =>
      have hn : ∀ i, nodeAt (initStep st (m + 1)) i = nodeAt st i := fun i =>
        nodeAt_congr (by simp [initStep_succ]) (by simp [initStep_succ])
          (by simp [initStep_succ]) (by simp [initStep_succ]) i
      have hl : ∀ i, lineAt (initStep st (m + 1)) i = lineAt st i := fun i =>
        lineAt_congr (by simp [initStep_succ]) (by simp [initStep_succ])
          (by simp [initStep_succ]) i
      simp only [hn, hl, funext hn]
      simp [initStep_succ, List.range_succ (m + 1), List.range_succ m]

theorem init_treeHeight (st : State) : (init st).treeHeight = floorLog2 st.values.length := by
  simp [init, initLoop_eq]

theorem init_leafSpacing (st : State) : (init st).leafSpacing = st.leafSpacing := by
  simp [init, initLoop_eq]

theorem init_nodeRadius (st : State) : (init st).nodeRadius = st.nodeRadius := by
  simp [init, initLoop_eq]

theorem init_values (st : State) : (init st).values = st.values := by
  simp [init, initLoop_eq]

theorem init_nodes (st : State) :
    (init st).nodes = st.nodes ++ (List.range st.values.length).reverse.map (nodeAt (init st)) := by
  have h : ∀ i, nodeAt (init st) i = nodeAt (withHeight st) i := fun i =>
    nodeAt_congr (by simp [init_values, withHeight]) (by simp [init_treeHeight, withHeight])
      (by simp [init_leafSpacing, withHeight]) (by simp [init_nodeRadius, withHeight]) i
  rw [funext h]
  simp [init, initLoop_eq, withHeight]

theorem init_lines (st : State) :
    (init st).lines =
      st.lines ++ (List.range (st.values.length - 1)).reverse.map
        (fun k => lineAt (init st) (k + 1)) := by
  have h : ∀ i, lineAt (init st) i = lineAt (withHeight st) i := fun i =>
    lineAt_congr (by simp [init_treeHeight, withHeight])
      (by simp [init_leafSpacing, withHeight]) (by simp [init_nodeRadius, withHeight]) i
  simp only [h]
  simp [init, initLoop_eq, withHeight]

/-! ## Closed form of the positions -/

/-- The range in which the layout is proved exact bounds the tree height. -/
theorem height_le_of_bound {H : ℕ} {T : ℤ} (hT : 0 < T) (hb : 2 ^ H * T ≤ 4194304) :
    H ≤ 22 := by
  by_contra hc
  have h23 : (2 : ℤ) ^ 23 ≤ 2 ^ H := two_pow_le_of_le (by omega)
  have hpos : (0 : ℤ) < 2 ^ H := by positivity
  nlinarith

theorem step_le_of_bound {H : ℕ} {T : ℤ} (hT : 0 < T) (hb : 2 ^ H * T ≤ 4194304) :
    T ≤ 4194304 := by
  have hpos : (1 : ℤ) ≤ 2 ^ H := one_le_pow₀ (by norm_num)
  nlinarith

theorem level_factor_le {l H : ℕ} (hl : l ≤ H) : 2 * (l : ℤ) + 3 ≤ 4 * 2 ^ H := by
  have h1 : l < 2 ^ l := Nat.lt_two_pow l
  have h2 : (2 : ℤ) ^ l ≤ 2 ^ H := two_pow_le_of_le hl
  have h3 : ((l : ℤ)) < 2 ^ l := by exact_mod_cast h1
  omega

theorem level_mul_le {l H : ℕ} {T : ℤ} (hT : 0 < T) (hb : 2 ^ H * T ≤ 4194304)
    (hl : l ≤ H) : (2 * (l : ℤ) + 3) * T ≤ 16777216 := by
  have h := level_factor_le hl
  have := mul_le_mul_of_nonneg_right h (le_of_lt hT)
  nlinarith

/-- In the exact range the ordinate is `level * (spacing + radius) + 1.5 * radius`. -/
theorem getNodePosition_y {st : State} {H : ℕ} (hs : 0 < st.leafSpacing)
    (hr : 0 < st.nodeRadius) (hb : 2 ^ H * (st.leafSpacing + st.nodeRadius) ≤ 4194304)
    {i : ℕ} (hl : levelOf i ≤ H) :
    (getNodePosition st i).y =
      (levelOf i : ℚ) * ((st.leafSpacing : ℚ) + st.nodeRadius) + (st.nodeRadius : ℚ) * (3 / 2) := by
  have hT : 0 < st.leafSpacing + st.nodeRadius := by omega
  have hT1 := step_le_of_bound hT hb
  have hlev := level_mul_le hT hb hl
  have hl0 : (0 : ℤ) ≤ (levelOf i : ℤ) * (st.leafSpacing + st.nodeRadius) :=
    mul_nonneg (by omega) (le_of_lt hT)
  have hw1 : wrapInt (st.leafSpacing + st.nodeRadius) = st.leafSpacing + st.nodeRadius :=
    wrapInt_of_range (by omega) (by omega)
  have hw2 : wrapInt ((levelOf i : ℤ) * (st.leafSpacing + st.nodeRadius)) =
      (levelOf i : ℤ) * (st.leafSpacing + st.nodeRadius) :=
    wrapInt_of_range (by omega) (by nlinarith)
  have hf1 : intToFloat ((levelOf i : ℤ) * (st.leafSpacing + st.nodeRadius)) =
      (((levelOf i : ℤ) * (st.leafSpacing + st.nodeRadius) : ℤ) : ℚ) :=
    intToFloat_of_small _ (by rw [abs_of_nonneg hl0]; nlinarith)
  have hf2 : intToFloat st.nodeRadius = (st.nodeRadius : ℚ) :=
    intToFloat_of_small _ (by rw [abs_of_pos hr]; omega)
  have hf3 : roundFloat ((st.nodeRadius : ℚ) * (3 / 2)) = ((3 * st.nodeRadius : ℤ) : ℚ) / 2 := by
    have e : (st.nodeRadius : ℚ) * (3 / 2) = ((3 * st.nodeRadius : ℤ) : ℚ) / 2 := by
      push_cast
      ring
    rw [e]
    exact roundFloat_half _ (by rw [abs_of_pos (by omega)]; omega)
  have hf4 : roundFloat ((((levelOf i : ℤ) * (st.leafSpacing + st.nodeRadius) : ℤ) : ℚ) +
      ((3 * st.nodeRadius : ℤ) : ℚ) / 2) =
      ((2 * ((levelOf i : ℤ) * (st.leafSpacing + st.nodeRadius)) + 3 * st.nodeRadius : ℤ) : ℚ)
        / 2 := by
    have e : (((levelOf i : ℤ) * (st.leafSpacing + st.nodeRadius) : ℤ) : ℚ) +
        ((3 * st.nodeRadius : ℤ) : ℚ) / 2 =
        ((2 * ((levelOf i : ℤ) * (st.leafSpacing + st.nodeRadius)) + 3 * st.nodeRadius : ℤ) : ℚ)
          / 2 := by
      push_cast
      ring
    rw [e]
    exact roundFloat_half _ (by rw [abs_of_nonneg (by omega)]; nlinarith)
  simp only [getNodePosition, hw1, hw2, hf1, hf2, hf3, hf4]
  push_cast
  ring

theorem distance_eq {l i : ℕ} (hl : l ≤ 22) (h1 : 2 ^ l ≤ i + 1) (h2 : i + 1 < 2 ^ (l + 1)) :
    wrapInt ((i : ℤ) - floatToInt (pow2 (l : ℤ) - 1)) = (i : ℤ) + 1 - 2 ^ l := by
  have hp := floatToInt_pow2_sub_natCast (n := l) (by omega) (c := 1) (by norm_num) (by norm_num)
  rw [Int.cast_one] at hp
  have hpow : (2 : ℤ) ^ l ≤ 2 ^ 22 := two_pow_le_of_le hl
  have h1z : (2 : ℤ) ^ l ≤ (i : ℤ) + 1 := by exact_mod_cast h1
  have h2z : (i : ℤ) + 1 < 2 ^ (l + 1) := by exact_mod_cast h2
  rw [pow_succ] at h2z
  rw [hp, wrapInt_of_range (by omega) (by omega)]
  ring

/-- In the exact range the abscissa is an affine function of the slot. -/
theorem getNodePosition_x {st : State} {H : ℕ} (hH : st.treeHeight = H)
    (hs : 0 < st.leafSpacing) (hr : 0 < st.nodeRadius)
    (hb : 2 ^ H * (st.leafSpacing + st.nodeRadius) ≤ 4194304) {i : ℕ} (hl : levelOf i ≤ H) :
    (getNodePosition st i).x =
      ((st.leafSpacing : ℚ) + st.nodeRadius) / 2 * ((slot H i : ℚ) - 2 ^ (H + 1)) := by
  have hT : 0 < st.leafSpacing + st.nodeRadius := by omega
  have hH22 := height_le_of_bound hT hb
  have hw1 : wrapInt (st.leafSpacing + st.nodeRadius) = st.leafSpacing + st.nodeRadius :=
    wrapInt_of_range (by omega) (by have := step_le_of_bound hT hb; omega)
  -- the distance from the leftmost index of the level
  have hd := distance_eq (le_trans hl hH22) (levelOf_le_self i) (levelOf_lt_succ i)
  have hd0 : (0 : ℤ) ≤ (i : ℤ) + 1 - 2 ^ levelOf i := by
    have : (2 : ℤ) ^ levelOf i ≤ (i : ℤ) + 1 := by exact_mod_cast levelOf_le_self i
    omega
  have hd1 : (i : ℤ) + 1 - 2 ^ levelOf i + 1 ≤ 2 ^ levelOf i := by
    have : (i : ℤ) + 1 < 2 ^ (levelOf i + 1) := by exact_mod_cast levelOf_lt_succ i
    rw [pow_succ] at this
    omega
  -- the padding of the level
  have hsub : wrapInt ((H : ℤ) - (levelOf i : ℤ)) = ((H - levelOf i : ℕ) : ℤ) := by
    rw [wrapInt_of_range (by omega) (by omega)]
    omega
  have hpw : floatToInt (pow2 ((H - levelOf i : ℕ) : ℤ)) = 2 ^ (H - levelOf i) :=
    floatToInt_pow2 (by omega)
  have hsplit : (2 : ℤ) ^ H = 2 ^ levelOf i * 2 ^ (H - levelOf i) := by
    rw [← pow_add]
    congr 1
    omega
  have hq0 : (0 : ℤ) < 2 ^ (H - levelOf i) := by positivity
  have hl0 : (0 : ℤ) < 2 ^ levelOf i := by positivity
  obtain ⟨P, hP⟩ : ∃ P : ℤ, P = 2 ^ (H - levelOf i) * (st.leafSpacing + st.nodeRadius) := ⟨_, rfl⟩
  have hP0 : 0 < P := by rw [hP]; positivity
  have hPb : 2 ^ levelOf i * P ≤ 4194304 := by
    rw [hP, ← mul_assoc, ← hsplit]
    exact hb
  obtain ⟨d, hdd⟩ : ∃ d : ℤ, d = (i : ℤ) + 1 - 2 ^ levelOf i := ⟨_, rfl⟩
  rw [← hdd] at hd hd0 hd1
  have hdP : d * P + P ≤ 4194304 := by nlinarith
  have hdP0 : 0 ≤ d * P := mul_nonneg hd0 (le_of_lt hP0)
  have hw2 : wrapInt (2 ^ (H - levelOf i) * (st.leafSpacing + st.nodeRadius)) = P := by
    rw [← hP]
    exact wrapInt_of_range (by omega) (by omega)
  have hf1 : intToFloat P = (P : ℚ) :=
    intToFloat_of_small _ (by rw [abs_of_pos hP0]; omega)
  have hf2 : roundFloat ((P : ℚ) / 2) = (P : ℚ) / 2 :=
    roundFloat_half _ (by rw [abs_of_pos hP0]; omega)
  have hf3 : intToFloat d = (d : ℚ) :=
    intToFloat_of_small _ (by rw [abs_of_nonneg hd0]; nlinarith)
  have hf4 : roundFloat ((d : ℚ) * ((P : ℚ) / 2)) = ((d * P : ℤ) : ℚ) / 2 := by
    have e : (d : ℚ) * ((P : ℚ) / 2) = ((d * P : ℤ) : ℚ) / 2 := by
      push_cast
      ring
    rw [e]
    exact roundFloat_half _ (by rw [abs_of_nonneg hdP0]; omega)
  have hf5 : roundFloat (((d * P : ℤ) : ℚ) / 2 * 2) = ((d * P : ℤ) : ℚ) := by
    have e : ((d * P : ℤ) : ℚ) / 2 * 2 = ((d * P : ℤ) : ℚ) := by ring
    rw [e]
    exact roundFloat_intCast _ (by rw [abs_of_nonneg hdP0]; omega)
  have hf6 : roundFloat ((P : ℚ) / 2 + ((d * P : ℤ) : ℚ)) = (((2 * d + 1) * P : ℤ) : ℚ) / 2 := by
    have e : (P : ℚ) / 2 + ((d * P : ℤ) : ℚ) = (((2 * d + 1) * P : ℤ) : ℚ) / 2 := by
      push_cast
      ring
    rw [e]
    exact roundFloat_half _ (by
      rw [abs_of_nonneg (by nlinarith)]
      nlinarith)
  have hp : (2 : ℚ) ^ (H + 1) = 2 ^ (H - levelOf i) * 2 ^ levelOf i * 2 := by
    rw [← pow_add, ← pow_succ]
    congr 1
    omega
  simp only [getNodePosition, hH, hd, hsub, hpw, hw1, hw2, hf1, hf2, hf3, hf4, hf5, hf6, slot, hp]
  rw [hdd, hP]
  push_cast
  ring

theorem pow_height_bound {n : ℕ} {T : ℤ} (hn : 0 < n) (hT : 0 < T)
    (hb : (n : ℤ) * T ≤ 4194304) : 2 ^ floorLog2 n * T ≤ 4194304 := by
  have h : 2 ^ floorLog2 n ≤ n := Nat.pow_log_le_self 2 (Nat.pos_iff_ne_zero.mp hn)
  have hz : (2 : ℤ) ^ floorLog2 n ≤ n := by exact_mod_cast h
  nlinarith

theorem init_bound (st : State) (hv : st.values ≠ []) (hs : 0 < st.leafSpacing)
    (hr : 0 < st.nodeRadius)
    (hb : (st.values.length : ℤ) * (st.leafSpacing + st.nodeRadius) ≤ 4194304) :
    2 ^ floorLog2 st.values.length * ((init st).leafSpacing + (init st).nodeRadius) ≤ 4194304 := by
  rw [init_leafSpacing, init_nodeRadius]
  exact pow_height_bound (List.length_pos.mpr hv) (by omega) hb

theorem init_x_of_level (st : State) (hv : st.values ≠ []) (hs : 0 < st.leafSpacing)
    (hr : 0 < st.nodeRadius)
    (hb : (st.values.length : ℤ) * (st.leafSpacing + st.nodeRadius) ≤ 4194304) {i : ℕ}
    (h : levelOf i ≤ floorLog2 st.values.length) :
    (getNodePosition (init st) i).x =
      ((st.leafSpacing : ℚ) + st.nodeRadius) / 2 *
        ((slot (floorLog2 st.values.length) i : ℚ) - 2 ^ (floorLog2 st.values.length + 1)) := by
  rw [getNodePosition_x (init_treeHeight st) (by rw [init_leafSpacing]; exact hs)
    (by rw [init_nodeRadius]; exact hr) (init_bound st hv hs hr hb) h, init_leafSpacing,
    init_nodeRadius]

theorem values_ne_nil_of_lt {st : State} {i : ℕ} (h : i < st.values.length) :
    st.values ≠ [] := by
  intro hc
  rw [hc] at h
  exact Nat.not_lt_zero _ h

theorem init_x (st : State) (hs : 0 < st.leafSpacing) (hr : 0 < st.nodeRadius)
    (hb : (st.values.length : ℤ) * (st.leafSpacing + st.nodeRadius) ≤ 4194304) {i : ℕ}
    (h : i < st.values.length) :
    (getNodePosition (init st) i).x =
      ((st.leafSpacing : ℚ) + st.nodeRadius) / 2 *
        ((slot (floorLog2 st.values.length) i : ℚ) - 2 ^ (floorLog2 st.values.length + 1)) :=
  init_x_of_level st (values_ne_nil_of_lt h) hs hr hb (levelOf_le_floorLog2 h)

theorem init_y_of_level (st : State) (hv : st.values ≠ []) (hs : 0 < st.leafSpacing)
    (hr : 0 < st.nodeRadius)
    (hb : (st.values.length : ℤ) * (st.leafSpacing + st.nodeRadius) ≤ 4194304) {i : ℕ}
    (h : levelOf i ≤ floorLog2 st.values.length) :
    (getNodePosition (init st) i).y =
      (levelOf i : ℚ) * ((st.leafSpacing : ℚ) + st.nodeRadius) + (st.nodeRadius : ℚ) * (3 / 2) := by
  rw [getNodePosition_y (by rw [init_leafSpacing]; exact hs) (by rw [init_nodeRadius]; exact hr)
    (init_bound st hv hs hr hb) h, init_leafSpacing, init_nodeRadius]

theorem init_y (st : State) (hs : 0 < st.leafSpacing) (hr : 0 < st.nodeRadius)
    (hb : (st.values.length : ℤ) * (st.leafSpacing + st.nodeRadius) ≤ 4194304) {i : ℕ}
    (h : i < st.values.length) :
    (getNodePosition (init st) i).y =
      (levelOf i : ℚ) * ((st.leafSpacing : ℚ) + st.nodeRadius) + (st.nodeRadius : ℚ) * (3 / 2) :=
  init_y_of_level st (values_ne_nil_of_lt h) hs hr hb (levelOf_le_floorLog2 h)

/-! ## Nodes and lines produced by `init` -/

/-- C1: for every non-empty value list of size `n`, with spacing > 0 and
nodeRadius > 0, `init` started from empty `nodes` and `lines` collections
produces exactly `n` nodes and exactly `n - 1` lines. -/
theorem init_counts (st : State) (_hv : st.values ≠ []) (_hs : 0 < st.leafSpacing)
    (_hr : 0 < st.nodeRadius) (hn : st.nodes = []) (hl : st.lines = []) :
    (init st).nodes.length = st.values.length ∧
      (init st).lines.length = st.values.length - 1 := by
  rw [init_nodes, init_lines, hn, hl]
  simp

theorem init_counts_witness :
    (init sampleState).nodes.length = 3 ∧ (init sampleState).lines.length = 2 :=
  init_counts sampleState (by decide) (by decide) (by decide) rfl rfl

/-- C2: for every value list of size `n ≥ 1`, the lines that `init` produces
(from empty collections) are exactly the lines of the non-root indices
`n - 1`, ..., `1`, one each and no other; the line of the index `i` starts at
`getNodePosition(i)` and ends at `getNodePosition((i - 1) / 2)`, the position
of the heap parent, whose level is one less than the level of `i`; where the
layout is computed without overflow or rounding (spacing > 0, nodeRadius > 0
and `n * (spacing + nodeRadius) ≤ 2 ^ 22`) the ordinate of the parent is one
level step, `leafSpacing + nodeRadius`, less. -/
theorem init_lines_join_parent (st : State) (_hv : st.values ≠ []) (_hn : st.nodes = [])
    (hl : st.lines = []) :
    (init st).lines =
        (List.range (st.values.length - 1)).reverse.map (fun k =>
          ({ start := getNodePosition (init st) (k + 1)
             end_ := getNodePosition (init st) ((k + 1 - 1) / 2) } : Line)) ∧
      ∀ i, 1 ≤ i → i < st.values.length →
        levelOf ((i - 1) / 2) + 1 = levelOf i ∧
        (0 < st.leafSpacing → 0 < st.nodeRadius →
          (st.values.length : ℤ) * (st.leafSpacing + st.nodeRadius) ≤ 4194304 →
          (getNodePosition (init st) ((i - 1) / 2)).y + (st.leafSpacing + st.nodeRadius) =
            (getNodePosition (init st) i).y) := by
  refine ⟨?_, fun i hi hin => ?_⟩
  · rw [init_lines, hl]
    simp [lineAt, parentIndex]
  · have hlev : levelOf ((i - 1) / 2) + 1 = levelOf i := levelOf_parentIndex hi
    refine ⟨hlev, fun hs hr hb => ?_⟩
    have hp : (i - 1) / 2 < st.values.length := by omega
    rw [init_y st hs hr hb hp, init_y st hs hr hb hin, ← hlev]
    push_cast
    ring

theorem init_lines_join_parent_witness :
    (init sampleState).lines =
        (List.range (3 - 1)).reverse.map (fun k =>
          ({ start := getNodePosition (init sampleState) (k + 1)
             end_ := getNodePosition (init sampleState) ((k + 1 - 1) / 2) } : Line)) ∧
      ∀ i, 1 ≤ i → i < 3 →
        levelOf ((i - 1) / 2) + 1 = levelOf i ∧
        (0 < sampleState.leafSpacing → 0 < sampleState.nodeRadius →
          (sampleState.values.length : ℤ) * (sampleState.leafSpacing + sampleState.nodeRadius)
            ≤ 4194304 →
          (getNodePosition (init sampleState) ((i - 1) / 2)).y +
              (sampleState.leafSpacing + sampleState.nodeRadius) =
            (getNodePosition (init sampleState) i).y) :=
  init_lines_join_parent sampleState (by decide) rfl rfl

/-- C8 (as stated, refuted): for the list A, B, C the first node produced
carries the last value, C, whereas the first value is A. -/
theorem nodes_not_in_input_order :
    (init sampleState).nodes[0]?.map Node.value = some "C" ∧
      sampleState.values[0]? = some "A" := by
  decide

/-- C8 (amended): the node collection is indexed in reverse input order: for
every value list of size `n ≥ 1` and every `k < n`, `nodes[k]` carries the
label `values[n - 1 - k]` and the position `getNodePosition(n - 1 - k)`. -/
theorem init_nodes_reversed (st : State) (_hv : st.values ≠ []) (hn : st.nodes = [])
    (_hl : st.lines = []) (k : ℕ) (hk : k < st.values.length) :
    (init st).nodes[k]?.map Node.value = st.values[st.values.length - 1 - k]? ∧
      (init st).nodes[k]?.map Node.position =
        some (getNodePosition (init st) (st.values.length - 1 - k)) := by
  have hlt : st.values.length - 1 - k < st.values.length := by omega
  have hget : (init st).nodes[k]? = some (nodeAt (init st) (st.values.length - 1 - k)) := by
    rw [init_nodes, hn, List.nil_append, List.getElem?_map, List.getElem?_reverse (by simpa using hk)]
    simp [List.getElem?_range hlt]
  rw [hget]
  refine ⟨?_, rfl⟩
  simp [nodeAt, init_values, List.getD_eq_getElem?_getD, List.getElem?_eq_getElem hlt]

theorem init_nodes_reversed_witness :
    (init sampleState).nodes[1]?.map Node.value = sampleState.values[3 - 1 - 1]? ∧
      (init sampleState).nodes[1]?.map Node.position =
        some (getNodePosition (init sampleState) (3 - 1 - 1)) :=
  init_nodes_reversed sampleState (by decide) rfl rfl 1 (by decide)

/-! ## Order of the positions -/

theorem half_step_pos {st : State} (hs : 0 < st.leafSpacing) (hr : 0 < st.nodeRadius) :
    (0 : ℚ) < ((st.leafSpacing : ℚ) + st.nodeRadius) / 2 := by
  have h1 : (0 : ℚ) < st.leafSpacing := by exact_mod_cast hs
  have h2 : (0 : ℚ) < st.nodeRadius := by exact_mod_cast hr
  linarith

/-- The abscissas of two indices of the list compare as their slots. -/
theorem init_x_lt_of_slot_lt (st : State) (hs : 0 < st.leafSpacing) (hr : 0 < st.nodeRadius)
    (hb : (st.values.length : ℤ) * (st.leafSpacing + st.nodeRadius) ≤ 4194304)
    {i j : ℕ} (hi : i < st.values.length) (hj : j < st.values.length)
    (h : slot (floorLog2 st.values.length) i < slot (floorLog2 st.values.length) j) :
    (getNodePosition (init st) i).x < (getNodePosition (init st) j).x := by
  rw [init_x st hs hr hb hi, init_x st hs hr hb hj]
  have hq : (slot (floorLog2 st.values.length) i : ℚ) < slot (floorLog2 st.values.length) j := by
    exact_mod_cast h
  exact mul_lt_mul_of_pos_left (by linarith) (half_step_pos hs hr)

/-- The ordinate depends on the index through its level only. -/
theorem getNodePosition_y_congr (st : State) {i j : ℕ} (h : levelOf i = levelOf j) :
    (getNodePosition st i).y = (getNodePosition st j).y := by
  simp only [getNodePosition, h]

/-- The abscissa is 0 when the `int` product in `padding` wraps to 0. -/
theorem getNodePosition_x_zero (st : State) (i : ℕ)
    (h : wrapInt (floatToInt (pow2 (wrapInt (st.treeHeight - (levelOf i : ℤ)))) *
      wrapInt (st.leafSpacing + st.nodeRadius)) = 0) :
    (getNodePosition st i).x = 0 := by
  simp [getNodePosition, h, intToFloat, roundFloat_zero]

/-- The rounding to `float` of a number of binary exponent `e`. -/
theorem roundFloat_of_bounds (q : ℚ) (e : ℤ) (h1 : (2 : ℚ) ^ e ≤ |q|) (h2 : |q| < 2 ^ (e + 1)) :
    roundFloat q = roundHalfEven (q / 2 ^ (e - 23)) * 2 ^ (e - 23) := by
  have hpos : 0 < |q| := lt_of_lt_of_le (by positivity) h1
  have hq : q ≠ 0 := abs_pos.mp hpos
  have hlog : Int.log 2 |q| = e := by
    apply le_antisymm
    · have := (Int.lt_zpow_iff_log_lt (b := 2) (by norm_num) hpos).mp (by exact_mod_cast h2)
      omega
    · exact (Int.zpow_le_iff_le_log (b := 2) (by norm_num) hpos).mp (by exact_mod_cast h1)
  unfold roundFloat
  rw [if_neg hq, hlog]

theorem roundHalfEven_down (q : ℚ) (z : ℤ) (h1 : (z : ℚ) ≤ q) (h2 : q - z < 1 / 2) :
    roundHalfEven q = z := by
  have hf : ⌊q⌋ = z := Int.floor_eq_iff.mpr ⟨h1, by linarith⟩
  unfold roundHalfEven
  rw [hf, if_pos h2]

theorem roundHalfEven_up (q : ℚ) (z : ℤ) (h1 : 1 / 2 < q - z) (h2 : q < z + 1) :
    roundHalfEven q = z + 1 := by
  have hf : ⌊q⌋ = z := Int.floor_eq_iff.mpr ⟨by linarith, h2⟩
  unfold roundHalfEven
  rw [hf, if_neg (by linarith), if_pos h1]

theorem roundHalfEven_tie (z : ℤ) :
    roundHalfEven (z + 1 / 2) = if z % 2 = 0 then z else z + 1 := by
  have hf : ⌊(z : ℚ) + 1 / 2⌋ = z := Int.floor_eq_iff.mpr ⟨by linarith, by linarith⟩
  unfold roundHalfEven
  rw [hf, if_neg (by norm_num), if_neg (by norm_num)]

theorem overflow_treeHeight : (init overflowState).treeHeight = 3 := by
  rw [init_treeHeight]
  simp [overflowState, State.initial, floorLog2, Nat.log]

/-- With the level step `2 ^ 30` the paddings of the levels 0 and 1 of a tree
of height 3 wrap to 0: the indices 0, 1 and 2 all have the abscissa 0. -/
theorem overflow_x_zero :
    (getNodePosition (init overflowState) 0).x = 0 ∧
      (getNodePosition (init overflowState) 1).x = 0 ∧
      (getNodePosition (init overflowState) 2).x = 0 := by
  have h8 : floatToInt (pow2 3) = 8 := by
    have := floatToInt_intCast 8 (by norm_num) (by norm_num)
    norm_num [pow2] at this ⊢
    exact this
  have h4 : floatToInt (pow2 2) = 4 := by
    have := floatToInt_intCast 4 (by norm_num) (by norm_num)
    norm_num [pow2] at this ⊢
    exact this
  have hl0 : levelOf 0 = 0 := by simp [levelOf, floorLog2]
  have hl1 : levelOf 1 = 1 := by simp [levelOf, floorLog2, Nat.log]
  have hl2 : levelOf 2 = 1 := by simp [levelOf, floorLog2, Nat.log]
  have hw3 : wrapInt 3 = 3 := by norm_num [wrapInt]
  have hw2 : wrapInt 2 = 2 := by norm_num [wrapInt]
  have hT : wrapInt ((init overflowState).leafSpacing + (init overflowState).nodeRadius) =
      1073741824 := by
    rw [init_leafSpacing, init_nodeRadius]
    norm_num [wrapInt, overflowState, State.initial]
  refine ⟨?_, ?_, ?_⟩
  · apply getNodePosition_x_zero
    rw [overflow_treeHeight, hl0, hT]
    norm_num
    rw [hw3, h8]
    norm_num [wrapInt]
  · apply getNodePosition_x_zero
    rw [overflow_treeHeight, hl1, hT]
    norm_num
    rw [hw2, h4]
    norm_num [wrapInt]
  · apply getNodePosition_x_zero
    rw [overflow_treeHeight, hl2, hT]
    norm_num
    rw [hw2, h4]
    norm_num [wrapInt]

/-- With three values and spacing = nodeRadius = 16777210 the sum
`padding + 2 * padding` of the index 2 is 50331630, which no `float`
represents: it is rounded to 50331632. -/
theorem rounding_x :
    (getNodePosition (init roundingState) 0).x = 33554420 ∧
      (getNodePosition (init roundingState) 1).x = 16777210 ∧
      (getNodePosition (init roundingState) 2).x = 50331632 := by
  have hl0 : levelOf 0 = 0 := by simp [levelOf, floorLog2]
  have hl1 : levelOf 1 = 1 := by simp [levelOf, floorLog2, Nat.log]
  have hl2 : levelOf 2 = 1 := by simp [levelOf, floorLog2, Nat.log]
  have hs : (init roundingState).leafSpacing = 16777210 := by
    rw [init_leafSpacing]
    rfl
  have hr : (init roundingState).nodeRadius = 16777210 := by
    rw [init_nodeRadius]
    rfl
  have hH : (init roundingState).treeHeight = 1 := by
    rw [init_treeHeight]
    simp [roundingState, State.initial, floorLog2, Nat.log]
  have hp0 : floatToInt (pow2 0) = 1 := by
    have := floatToInt_intCast 1 (by norm_num) (by norm_num)
    norm_num [pow2] at this ⊢
    exact this
  have hp1 : floatToInt (pow2 1) = 2 := by
    have := floatToInt_intCast 2 (by norm_num) (by norm_num)
    norm_num [pow2] at this ⊢
    exact this
  have hm0 : floatToInt (pow2 0 - 1) = 0 := by
    have := floatToInt_intCast 0 (by norm_num) (by norm_num)
    norm_num [pow2] at this ⊢
    exact this
  have hm1 : floatToInt (pow2 1 - 1) = 1 := by
    have := floatToInt_intCast 1 (by norm_num) (by norm_num)
    norm_num [pow2] at this ⊢
    exact this
  have hw0 : wrapInt 0 = 0 := by norm_num [wrapInt]
  have hw1 : wrapInt 1 = 1 := by norm_num [wrapInt]
  have hwT : wrapInt (16777210 + 16777210) = 33554420 := by norm_num [wrapInt]
  have hwA : wrapInt (2 * 33554420) = 67108840 := by norm_num [wrapInt]
  have hwB : wrapInt (1 * 33554420) = 33554420 := by norm_num [wrapInt]
  have hfA : intToFloat 67108840 = 67108840 := by
    have := roundFloat_representable 16777210 2 (by norm_num)
    norm_num at this
    simpa [intToFloat] using this
  have hfB : intToFloat 33554420 = 33554420 := by
    have := roundFloat_representable 8388605 2 (by norm_num)
    norm_num at this
    simpa [intToFloat] using this
  have hf1 : intToFloat 1 = 1 := by
    have := intToFloat_of_small 1 (by norm_num)
    simpa using this
  have hrB : roundFloat 33554420 = 33554420 := by
    have := roundFloat_representable 8388605 2 (by norm_num)
    norm_num at this
    exact this
  have hrC : roundFloat 16777210 = 16777210 := by
    have := roundFloat_intCast 16777210 (by norm_num)
    simpa using this
  have hrD : roundFloat 50331630 = 50331632 := by
    rw [roundFloat_of_bounds 50331630 25 (by norm_num [abs_of_pos]) (by norm_num [abs_of_pos])]
    have e : (50331630 : ℚ) / 2 ^ ((25 : ℤ) - 23) = ((12582907 : ℤ) : ℚ) + 1 / 2 := by norm_num
    rw [e, roundHalfEven_tie]
    norm_num
  refine ⟨?_, ?_, ?_⟩
  · simp only [getNodePosition, hl0, hs, hr, hH, Nat.cast_zero, sub_zero, sub_self, hw0, hw1,
      hp1, hm0, hwT, hwA, hfA]
    norm_num [intToFloat, roundFloat_zero, hrB]
  · simp only [getNodePosition, hl1, hs, hr, hH, Nat.cast_one, sub_self, hw0, hp0, hm1, hwT,
      hwB, hfB]
    norm_num [intToFloat, roundFloat_zero, hrC]
  · simp only [getNodePosition, hl2, hs, hr, hH, Nat.cast_one, Nat.cast_ofNat, sub_self, hw0,
      hp0, hm1, hwT, hwB, hfB]
    norm_num [hw1, hf1, hrC, hrB, hrD]

/-- With spacing 16777216 and radius 1 the level step 16777217 is not a
`float`: the ordinate of the level 1 is 16777218, while the ordinate of the
root is 1.5. -/
theorem step_y :
    (getNodePosition (init stepState) 0).y = 3 / 2 ∧
      (getNodePosition (init stepState) 1).y = 16777218 := by
  have hl0 : levelOf 0 = 0 := by simp [levelOf, floorLog2]
  have hl1 : levelOf 1 = 1 := by simp [levelOf, floorLog2, Nat.log]
  have hs : (init stepState).leafSpacing = 16777216 := by
    rw [init_leafSpacing]
    rfl
  have hr : (init stepState).nodeRadius = 1 := by
    rw [init_nodeRadius]
    rfl
  have hwT : wrapInt (16777216 + 1) = 16777217 := by norm_num [wrapInt]
  have hw0 : wrapInt (0 * 16777217) = 0 := by norm_num [wrapInt]
  have hw1 : wrapInt (1 * 16777217) = 16777217 := by norm_num [wrapInt]
  have hf0 : intToFloat 0 = 0 := by simp [intToFloat, roundFloat_zero]
  have hf1 : intToFloat 1 = 1 := by
    have := intToFloat_of_small 1 (by norm_num)
    simpa using this
  have hr32 : roundFloat (3 / 2) = 3 / 2 := by
    have := roundFloat_representable 3 (-1) (by norm_num)
    norm_num at this
    exact this
  have hfT : intToFloat 16777217 = 16777216 := by
    unfold intToFloat
    have hc : ((16777217 : ℤ) : ℚ) = 16777217 := by norm_num
    rw [hc, roundFloat_of_bounds 16777217 24 (by norm_num [abs_of_pos])
      (by norm_num [abs_of_pos])]
    have e : (16777217 : ℚ) / 2 ^ ((24 : ℤ) - 23) = ((8388608 : ℤ) : ℚ) + 1 / 2 := by norm_num
    rw [e, roundHalfEven_tie]
    norm_num
  have hrS : roundFloat (33554435 / 2) = 16777218 := by
    rw [roundFloat_of_bounds _ 24 (by norm_num [abs_of_pos]) (by norm_num [abs_of_pos])]
    rw [roundHalfEven_up _ 8388608 (by norm_num) (by norm_num)]
    norm_num
  constructor
  · simp only [getNodePosition, hl0, hs, hr, Nat.cast_zero, hwT, hw0, hf0, hf1]
    norm_num [hr32]
  · simp only [getNodePosition, hl1, hs, hr, Nat.cast_one, hwT, hw1, hfT, hf1]
    norm_num [hr32, hrS]

/-- An index of the subtree rooted at `c`, `m` levels below `c`, lies in the
block of `2 ^ m` consecutive indices that this level holds under `c`. -/
theorem InSubtree.bounds {c j : ℕ} (h : InSubtree c j) :
    ∃ m, levelOf j = levelOf c + m ∧ (c + 1) * 2 ^ m ≤ j + 1 ∧ j + 1 < (c + 2) * 2 ^ m := by
  induction h with
  | self => exact ⟨0, by simp⟩
  | @left j _ ih =>
    obtain ⟨m, hl, h1, h2⟩ := ih
    refine ⟨m + 1, by rw [levelOf_left, hl]; ring, ?_, ?_⟩
    · have e : (c + 1) * 2 ^ (m + 1) = 2 * ((c + 1) * 2 ^ m) := by ring
      omega
    · have e : (c + 2) * 2 ^ (m + 1) = 2 * ((c + 2) * 2 ^ m) := by ring
      omega
  | @right j _ ih =>
    obtain ⟨m, hl, h1, h2⟩ := ih
    refine ⟨m + 1, by rw [levelOf_right, hl]; ring, ?_, ?_⟩
    · have e : (c + 1) * 2 ^ (m + 1) = 2 * ((c + 1) * 2 ^ m) := by ring
      omega
    · have e : (c + 2) * 2 ^ (m + 1) = 2 * ((c + 2) * 2 ^ m) := by ring
      omega

theorem slot_lt_of_left_subtree {H i j : ℕ} (h : InSubtree (2 * i + 1) j) (hj : levelOf j ≤ H) :
    slot H j < slot H i := by
  obtain ⟨m, hl, _, h2⟩ := h.bounds
  rw [levelOf_left] at hl
  have hexp : H - levelOf i = (H - levelOf j) + (m + 1) := by omega
  unfold slot
  rw [hexp, pow_add, mul_assoc]
  apply Nat.mul_lt_mul_of_pos_left _ (by positivity)
  have e : 2 ^ (m + 1) * (2 * i + 3) = 2 * ((2 * i + 1 + 2) * 2 ^ m) := by ring
  omega

theorem slot_lt_of_right_subtree {H i j : ℕ} (h : InSubtree (2 * i + 2) j)
    (hj : levelOf j ≤ H) : slot H i < slot H j := by
  obtain ⟨m, hl, h1, _⟩ := h.bounds
  rw [levelOf_right] at hl
  have hexp : H - levelOf i = (H - levelOf j) + (m + 1) := by omega
  unfold slot
  rw [hexp, pow_add, mul_assoc]
  apply Nat.mul_lt_mul_of_pos_left _ (by positivity)
  have e : 2 ^ (m + 1) * (2 * i + 3) = 2 * ((2 * i + 2 + 1) * 2 ^ m) := by ring
  omega

theorem two_le_two_pow_succ (H : ℕ) : 2 ≤ 2 ^ (H + 1) := by
  have := Nat.one_le_two_pow (n := H)
  rw [pow_succ]; omega

theorem levelOf_rightMost (H : ℕ) : levelOf (2 ^ (H + 1) - 2) = H := by
  have h2 := two_le_two_pow_succ H
  apply levelOf_eq_of_bounds
  · have : 2 ^ (H + 1) = 2 * 2 ^ H := by ring
    have := Nat.one_le_two_pow (n := H)
    omega
  · omega

theorem slot_rightMost (H : ℕ) : slot H (2 ^ (H + 1) - 2) + 1 = 2 ^ (H + 2) := by
  have h2 := two_le_two_pow_succ H
  have e : 2 ^ (H + 2) = 2 * 2 ^ (H + 1) := by ring
  simp only [slot, levelOf_rightMost, Nat.sub_self, pow_zero, one_mul]
  omega

theorem slot_le_rightMost {H i : ℕ} (h : levelOf i ≤ H) :
    slot H i ≤ slot H (2 ^ (H + 1) - 2) := by
  have hr := slot_rightMost H
  have hlt := levelOf_lt_succ i
  have hexp : H + 2 = (H - levelOf i) + (levelOf i + 2) := by omega
  have hpos : 1 ≤ 2 ^ (H - levelOf i) := Nat.one_le_two_pow
  have h4 : 2 * i + 4 ≤ 2 ^ (levelOf i + 2) := by
    have e : 2 ^ (levelOf i + 2) = 2 * 2 ^ (levelOf i + 1) := by ring
    omega
  have hmul : 2 ^ (H - levelOf i) * (2 * i + 4) ≤ 2 ^ (H + 2) := by
    conv_rhs => rw [hexp, pow_add]
    exact Nat.mul_le_mul_left _ h4
  have e : 2 ^ (H - levelOf i) * (2 * i + 4) =
      2 ^ (H - levelOf i) * (2 * i + 3) + 2 ^ (H - levelOf i) := by ring
  unfold slot at hr ⊢
  omega

theorem rightMost_index {H : ℕ} (hH : H ≤ 29) :
    (floatToInt (pow2 (wrapInt ((H : ℤ) + 1)) - 2)).toNat = 2 ^ (H + 1) - 2 := by
  have h2 := two_le_two_pow_succ H
  have e : wrapInt ((H : ℤ) + 1) = ((H + 1 : ℕ) : ℤ) := by
    rw [wrapInt_of_range (by omega) (by omega)]
    push_cast
    rfl
  have h := floatToInt_pow2_sub_natCast (n := H + 1) (by omega) (c := 2) (by norm_num)
    (by norm_num)
  rw [Int.cast_ofNat] at h
  rw [e, h]
  have : ((2 : ℤ) ^ (H + 1) - 2) = ((2 ^ (H + 1) - 2 : ℕ) : ℤ) := by
    rw [Nat.cast_sub h2]; push_cast; rfl
  rw [this, Int.toNat_natCast]

theorem init_position_withHeight (st : State) (i : ℕ) :
    getNodePosition (init st) i = getNodePosition (withHeight st) i :=
  getNodePosition_congr (by simp [init_treeHeight, withHeight])
    (by simp [init_leafSpacing, withHeight]) (by simp [init_nodeRadius, withHeight]) i

/-- The window width as `init` computes it, whatever the globals. -/
theorem init_windowWidth_raw (st : State) :
    (init st).windowWidth =
      floatToInt (roundFloat ((getNodePosition (init st)
        (floatToInt (pow2 (wrapInt ((floorLog2 st.values.length : ℤ) + 1)) - 2)).toNat).x +
          intToFloat st.leafSpacing)) := by
  rw [init_position_withHeight]
  simp only [init, initLoop_eq]
  rfl

/-- The window height as `init` computes it, whatever the globals. -/
theorem init_windowHeight_raw (st : State) :
    (init st).windowHeight =
      floatToInt (roundFloat ((getNodePosition (init st)
        (floatToInt (pow2 (wrapInt ((floorLog2 st.values.length : ℤ) + 1)) - 2)).toNat).y +
          intToFloat st.leafSpacing)) := by
  rw [init_position_withHeight]
  simp only [init, initLoop_eq]
  rfl

/-- The index whose position `init` uses to size the window. -/
theorem init_windowWidth (st : State) (hH : floorLog2 st.values.length ≤ 29) :
    (init st).windowWidth =
      floatToInt (roundFloat
        ((getNodePosition (init st) (2 ^ (floorLog2 st.values.length + 1) - 2)).x +
          intToFloat st.leafSpacing)) := by
  rw [init_windowWidth_raw, rightMost_index hH]

theorem init_windowHeight (st : State) (hH : floorLog2 st.values.length ≤ 29) :
    (init st).windowHeight =
      floatToInt (roundFloat
        ((getNodePosition (init st) (2 ^ (floorLog2 st.values.length + 1) - 2)).y +
          intToFloat st.leafSpacing)) := by
  rw [init_windowHeight_raw, rightMost_index hH]

theorem init_x_le_rightMost (st : State) (hv : st.values ≠ []) (hs : 0 < st.leafSpacing)
    (hr : 0 < st.nodeRadius)
    (hb : (st.values.length : ℤ) * (st.leafSpacing + st.nodeRadius) ≤ 4194304)
    {i : ℕ} (h : levelOf i ≤ floorLog2 st.values.length) :
    (getNodePosition (init st) i).x ≤
      (getNodePosition (init st) (2 ^ (floorLog2 st.values.length + 1) - 2)).x := by
  rw [init_x_of_level st hv hs hr hb h,
    init_x_of_level st hv hs hr hb (le_of_eq (levelOf_rightMost _))]
  have hq : (slot (floorLog2 st.values.length) i : ℚ) ≤
      slot (floorLog2 st.values.length) (2 ^ (floorLog2 st.values.length + 1) - 2) := by
    exact_mod_cast slot_le_rightMost h
  exact mul_le_mul_of_nonneg_left (by linarith) (le_of_lt (half_step_pos hs hr))

theorem init_y_le_rightMost (st : State) (hv : st.values ≠ []) (hs : 0 < st.leafSpacing)
    (hr : 0 < st.nodeRadius)
    (hb : (st.values.length : ℤ) * (st.leafSpacing + st.nodeRadius) ≤ 4194304)
    {i : ℕ} (h : levelOf i ≤ floorLog2 st.values.length) :
    (getNodePosition (init st) i).y ≤
      (getNodePosition (init st) (2 ^ (floorLog2 st.values.length + 1) - 2)).y := by
  rw [init_y_of_level st hv hs hr hb h,
    init_y_of_level st hv hs hr hb (le_of_eq (levelOf_rightMost _)), levelOf_rightMost]
  have hq : (levelOf i : ℚ) ≤ floorLog2 st.values.length := by exact_mod_cast h
  have hstep := half_step_pos hs hr
  have : (levelOf i : ℚ) * ((st.leafSpacing : ℚ) + st.nodeRadius) ≤
      (floorLog2 st.values.length : ℚ) * ((st.leafSpacing : ℚ) + st.nodeRadius) :=
    mul_le_mul_of_nonneg_right hq (by linarith)
  linarith

/-- The abscissa of the sizing index, as a half-integer. -/
theorem init_x_rightMost (st : State) (hv : st.values ≠ []) (hs : 0 < st.leafSpacing)
    (hr : 0 < st.nodeRadius)
    (hb : (st.values.length : ℤ) * (st.leafSpacing + st.nodeRadius) ≤ 4194304) :
    (getNodePosition (init st) (2 ^ (floorLog2 st.values.length + 1) - 2)).x =
      (((st.leafSpacing + st.nodeRadius) * (2 ^ (floorLog2 st.values.length + 1) - 1) : ℤ) : ℚ)
        / 2 := by
  rw [init_x_of_level st hv hs hr hb (le_of_eq (levelOf_rightMost _))]
  have h := slot_rightMost (floorLog2 st.values.length)
  have hq : (slot (floorLog2 st.values.length) (2 ^ (floorLog2 st.values.length + 1) - 2) : ℚ)
      = 2 ^ (floorLog2 st.values.length + 2) - 1 := by
    have hc : ((slot (floorLog2 st.values.length)
        (2 ^ (floorLog2 st.values.length + 1) - 2) + 1 : ℕ) : ℚ) =
        ((2 ^ (floorLog2 st.values.length + 2) : ℕ) : ℚ) := by rw [h]
    push_cast at hc
    linarith
  rw [hq]
  push_cast
  ring

/-- The ordinate of the sizing index, as a half-integer. -/
theorem init_y_rightMost (st : State) (hv : st.values ≠ []) (hs : 0 < st.leafSpacing)
    (hr : 0 < st.nodeRadius)
    (hb : (st.values.length : ℤ) * (st.leafSpacing + st.nodeRadius) ≤ 4194304) :
    (getNodePosition (init st) (2 ^ (floorLog2 st.values.length + 1) - 2)).y =
      ((2 * (floorLog2 st.values.length * (st.leafSpacing + st.nodeRadius)) +
        3 * st.nodeRadius : ℤ) : ℚ) / 2 := by
  rw [init_y_of_level st hv hs hr hb (le_of_eq (levelOf_rightMost _)), levelOf_rightMost]
  push_cast
  ring

theorem floorLog2_full {k : ℕ} (hk : 1 ≤ k) : floorLog2 (2 ^ k - 1) = k - 1 := by
  obtain ⟨m, rfl⟩ : ∃ m, k = m + 1 := ⟨k - 1, by omega⟩
  have h1 := Nat.one_le_two_pow (n := m)
  have e : 2 ^ (m + 1) = 2 * 2 ^ m := by ring
  rw [Nat.add_sub_cancel]
  exact Nat.log_eq_of_pow_le_of_lt_pow (by omega) (by omega)

theorem height_le_of_count (st : State) (hv : st.values ≠ []) (hs : 0 < st.leafSpacing)
    (hr : 0 < st.nodeRadius)
    (hb : (st.values.length : ℤ) * (st.leafSpacing + st.nodeRadius) ≤ 4194304) :
    floorLog2 st.values.length ≤ 22 :=
  height_le_of_bound (by omega : 0 < st.leafSpacing + st.nodeRadius)
    (pow_height_bound (List.length_pos.mpr hv) (by omega) hb)

theorem init_windowWidth_eq (st : State) (hv : st.values ≠ []) (hs : 0 < st.leafSpacing)
    (hr : 0 < st.nodeRadius)
    (hb : (st.values.length : ℤ) * (st.leafSpacing + st.nodeRadius) ≤ 4194304) :
    (init st).windowWidth =
      ((st.leafSpacing + st.nodeRadius) * (2 ^ (floorLog2 st.values.length + 1) - 1) +
        2 * st.leafSpacing) / 2 := by
  have hT : 0 < st.leafSpacing + st.nodeRadius := by omega
  have hH := height_le_of_count st hv hs hr hb
  have hb2 := pow_height_bound (List.length_pos.mpr hv) hT hb
  have hpow : (1 : ℤ) ≤ 2 ^ floorLog2 st.values.length := one_le_pow₀ (by norm_num)
  obtain ⟨A, hA⟩ : ∃ A : ℤ, A = (st.leafSpacing + st.nodeRadius) *
      (2 ^ (floorLog2 st.values.length + 1) - 1) := ⟨_, rfl⟩
  have hA2 : A = 2 * (2 ^ floorLog2 st.values.length * (st.leafSpacing + st.nodeRadius)) -
      (st.leafSpacing + st.nodeRadius) := by
    rw [hA]; ring
  have hTle : st.leafSpacing + st.nodeRadius ≤
      2 ^ floorLog2 st.values.length * (st.leafSpacing + st.nodeRadius) := by nlinarith
  have hs1 : intToFloat st.leafSpacing = (st.leafSpacing : ℚ) :=
    intToFloat_of_small _ (by rw [abs_of_pos hs]; omega)
  have hsum : roundFloat ((A : ℚ) / 2 + (st.leafSpacing : ℚ)) =
      ((A + 2 * st.leafSpacing : ℤ) : ℚ) / 2 := by
    have e : (A : ℚ) / 2 + (st.leafSpacing : ℚ) = ((A + 2 * st.leafSpacing : ℤ) : ℚ) / 2 := by
      push_cast
      ring
    rw [e]
    exact roundFloat_half _ (by rw [abs_of_nonneg (by omega)]; omega)
  rw [init_windowWidth st (by omega), init_x_rightMost st hv hs hr hb, ← hA, hs1, hsum,
    floatToInt_half (by omega) (by omega)]

theorem init_windowHeight_eq (st : State) (hv : st.values ≠ []) (hs : 0 < st.leafSpacing)
    (hr : 0 < st.nodeRadius)
    (hb : (st.values.length : ℤ) * (st.leafSpacing + st.nodeRadius) ≤ 4194304) :
    (init st).windowHeight =
      (2 * (floorLog2 st.values.length * (st.leafSpacing + st.nodeRadius)) +
        3 * st.nodeRadius + 2 * st.leafSpacing) / 2 := by
  have hT : 0 < st.leafSpacing + st.nodeRadius := by omega
  have hH := height_le_of_count st hv hs hr hb
  have hb2 := pow_height_bound (List.length_pos.mpr hv) hT hb
  have hlev := level_mul_le hT hb2 (le_refl (floorLog2 st.values.length))
  have hB : 0 ≤ (floorLog2 st.values.length : ℤ) * (st.leafSpacing + st.nodeRadius) :=
    mul_nonneg (by omega) (by omega)
  obtain ⟨B, hBe⟩ : ∃ B : ℤ, B = (floorLog2 st.values.length : ℤ) *
      (st.leafSpacing + st.nodeRadius) := ⟨_, rfl⟩
  rw [← hBe] at hB
  have hlev2 : 2 * B + 3 * (st.leafSpacing + st.nodeRadius) ≤ 16777216 := by
    rw [hBe]; nlinarith
  have hs1 : intToFloat st.leafSpacing = (st.leafSpacing : ℚ) :=
    intToFloat_of_small _ (by rw [abs_of_pos hs]; omega)
  have hsum : roundFloat (((2 * B + 3 * st.nodeRadius : ℤ) : ℚ) / 2 + (st.leafSpacing : ℚ)) =
      ((2 * B + 3 * st.nodeRadius + 2 * st.leafSpacing : ℤ) : ℚ) / 2 := by
    have e : ((2 * B + 3 * st.nodeRadius : ℤ) : ℚ) / 2 + (st.leafSpacing : ℚ) =
        ((2 * B + 3 * st.nodeRadius + 2 * st.leafSpacing : ℤ) : ℚ) / 2 := by
      push_cast
      ring
    rw [e]
    exact roundFloat_half _ (by rw [abs_of_nonneg (by omega)]; omega)
  rw [init_windowHeight st (by omega), init_y_rightMost st hv hs hr hb, ← hBe, hs1, hsum,
    floatToInt_half (by omega) (by omega)]

/-- The sizing index of a full tree is its last index. -/
theorem rightMost_lt_of_full {n k : ℕ} (hk : 1 ≤ k) (hlen : n = 2 ^ k - 1) :
    2 ^ (floorLog2 n + 1) - 2 < n := by
  rw [hlen, floorLog2_full hk, Nat.sub_add_cancel hk]
  have := two_le_two_pow_succ (k - 1)
  rw [Nat.sub_add_cancel hk] at this
  omega

/-- For one node with spacing `3 * 2 ^ 29` and radius `2 ^ 28` the node is at
`x = 7 * 2 ^ 27`, the `float` sum `x + spacing` is `19 * 2 ^ 27`, above
`INT_MAX`, and the window width is `INT_MIN`. -/
theorem huge_window :
    (getNodePosition (init hugeState) 0).x = 939524096 ∧
      (init hugeState).windowWidth = -2147483648 := by
  have hlog : floorLog2 hugeState.values.length = 0 := by
    simp [hugeState, floorLog2]
  have hl0 : levelOf 0 = 0 := by simp [levelOf, floorLog2]
  have hs : (init hugeState).leafSpacing = 1610612736 := by
    rw [init_leafSpacing]
    rfl
  have hr : (init hugeState).nodeRadius = 268435456 := by
    rw [init_nodeRadius]
    rfl
  have hH : (init hugeState).treeHeight = 0 := by
    rw [init_treeHeight, hlog]
    rfl
  have h1 : floatToInt (pow2 0) = 1 := by
    have := floatToInt_intCast 1 (by norm_num) (by norm_num)
    norm_num [pow2] at this ⊢
    exact this
  have h0 : floatToInt (pow2 0 - 1) = 0 := by
    have := floatToInt_intCast 0 (by norm_num) (by norm_num)
    norm_num [pow2] at this ⊢
    exact this
  have hw0 : wrapInt 0 = 0 := by norm_num [wrapInt]
  have hwT : wrapInt (1610612736 + 268435456) = 1879048192 := by norm_num [wrapInt]
  have hw1 : wrapInt (1 * 1879048192) = 1879048192 := by norm_num [wrapInt]
  have hfT : intToFloat 1879048192 = 1879048192 := by
    have := roundFloat_representable 7 28 (by norm_num)
    norm_num at this
    simpa [intToFloat] using this
  have hfP : roundFloat 939524096 = 939524096 := by
    have := roundFloat_representable 7 27 (by norm_num)
    norm_num at this
    exact this
  have hfs : intToFloat 1610612736 = 1610612736 := by
    have := roundFloat_representable 3 29 (by norm_num)
    norm_num at this
    simpa [intToFloat] using this
  have hfW : roundFloat 2550136832 = 2550136832 := by
    have := roundFloat_representable 19 27 (by norm_num)
    norm_num at this
    exact this
  have hx : (getNodePosition (init hugeState) 0).x = 939524096 := by
    simp only [getNodePosition, hl0, hs, hr, hH, Nat.cast_zero, sub_self, hw0, h1, h0, hwT, hw1,
      hfT]
    norm_num [intToFloat, roundFloat_zero, hfP]
  refine ⟨hx, ?_⟩
  rw [init_windowWidth hugeState (by rw [hlog]; norm_num), hlog]
  rw [show (2 ^ (0 + 1) - 2 : ℕ) = 0 from rfl, hx,
    show hugeState.leafSpacing = 1610612736 from rfl, hfs]
  norm_num [hfW]
  have hcast : ((2550136832 : ℤ) : ℚ) = 2550136832 := by norm_num
  rw [← hcast]
  unfold floatToInt
  simp

/-- C3 (as stated, refuted): for the full tree of one node with spacing 10
and nodeRadius 30 the canvas is 30 wide, while the circle of the node, centred
at `x = 20`, reaches `x = 50`.  And for one node with spacing `3 * 2 ^ 29`
and radius `2 ^ 28`, less than the spacing, the `float` width is above
`INT_MAX` and `windowWidth` is `INT_MIN`, left of the node. -/
theorem canvas_clips_wide_node :
    (wideNodeState.values.length = 2 ^ 1 - 1 ∧
      0 < wideNodeState.leafSpacing ∧ 0 < wideNodeState.nodeRadius ∧
      ((init wideNodeState).windowWidth : ℚ) <
        (getNodePosition (init wideNodeState) 0).x + wideNodeState.nodeRadius) ∧
      (hugeState.values.length = 2 ^ 1 - 1 ∧
        0 < hugeState.nodeRadius ∧ hugeState.nodeRadius < hugeState.leafSpacing ∧
        ((init hugeState).windowWidth : ℚ) <
          (getNodePosition (init hugeState) 0).x + hugeState.nodeRadius) := by
  refine ⟨⟨by decide, by decide, by decide, ?_⟩, ⟨by decide, by decide, by decide, ?_⟩⟩
  · have hlog : floorLog2 wideNodeState.values.length = 0 := by
      simp [wideNodeState, floorLog2]
    have hx : (getNodePosition (init wideNodeState) 0).x = (20 : ℚ) := by
      have := init_x_rightMost wideNodeState (by decide) (by decide) (by decide) (by decide)
      rw [hlog] at this
      rw [show (0 : ℕ) = 2 ^ (0 + 1) - 2 from rfl, this]
      norm_num [wideNodeState, State.initial]
    have hw : (init wideNodeState).windowWidth = 30 := by
      rw [init_windowWidth_eq wideNodeState (by decide) (by decide) (by decide) (by decide),
        hlog]
      norm_num [wideNodeState, State.initial]
    rw [hx, hw]
    norm_num [wideNodeState, State.initial]
  · rw [huge_window.1, huge_window.2]
    norm_num [hugeState, State.initial]

/-- For a full tree laid out without overflow or rounding, the canvas
contains the circle of every node on its trailing edges exactly when the
spacing exceeds the radius, or equals it and the radius is even. -/
theorem full_tree_canvas_iff (st : State) (k : ℕ) (hk : 1 ≤ k)
    (hlen : st.values.length = 2 ^ k - 1) (hs : 0 < st.leafSpacing)
    (hr : 0 < st.nodeRadius)
    (hb : (st.values.length : ℤ) * (st.leafSpacing + st.nodeRadius) ≤ 4194304) :
    (∀ i, i < st.values.length →
        (getNodePosition (init st) i).x + st.nodeRadius ≤ (init st).windowWidth ∧
        (getNodePosition (init st) i).y + st.nodeRadius ≤ (init st).windowHeight) ↔
      (st.nodeRadius < st.leafSpacing ∨
        (st.nodeRadius = st.leafSpacing ∧ 2 ∣ st.nodeRadius)) := by
  have hpow : (1 : ℤ) ≤ 2 ^ (floorLog2 st.values.length + 1) :=
    one_le_pow₀ (by norm_num)
  have hv : st.values ≠ [] := values_ne_nil_of_lt (rightMost_lt_of_full hk hlen)
  have hW := init_windowWidth_eq st hv hs hr hb
  have hH := init_windowHeight_eq st hv hs hr hb
  have hxr := init_x_rightMost st hv hs hr hb
  have hyr := init_y_rightMost st hv hs hr hb
  generalize (init st).windowWidth = W at hW ⊢
  generalize (init st).windowHeight = Hh at hH ⊢
  generalize hB : (floorLog2 st.values.length : ℤ) * (st.leafSpacing + st.nodeRadius) = B
    at hH hyr
  constructor
  · intro h
    obtain ⟨_, hy⟩ := h _ (rightMost_lt_of_full hk hlen)
    rw [hyr] at hy
    have hz : 2 * B + 3 * st.nodeRadius + 2 * st.nodeRadius ≤ 2 * Hh := by
      have : ((2 * B + 3 * st.nodeRadius + 2 * st.nodeRadius : ℤ) : ℚ) ≤ ((2 * Hh : ℤ) : ℚ) := by
        push_cast at hy ⊢
        linarith
      exact_mod_cast this
    omega
  · intro h i hi
    have hlev := levelOf_le_floorLog2 hi
    have hx := init_x_le_rightMost st hv hs hr hb hlev
    have hy := init_y_le_rightMost st hv hs hr hb hlev
    rw [hxr] at hx
    rw [hyr] at hy
    have hA : ∃ A, (st.leafSpacing + st.nodeRadius) *
        (2 ^ (floorLog2 st.values.length + 1) - 1) = A ∧
        (st.nodeRadius = st.leafSpacing → 2 ∣ A) :=
      ⟨_, rfl, fun e => by rw [e]; exact ⟨st.leafSpacing *
        (2 ^ (floorLog2 st.values.length + 1) - 1), by ring⟩⟩
    obtain ⟨A, hAe, hAd⟩ := hA
    rw [hAe] at hW hx
    have hzW : A + 2 * st.nodeRadius ≤ 2 * W := by
      rcases h with h | ⟨h, _⟩
      · omega
      · have := hAd h
        omega
    have hzH : 2 * B + 3 * st.nodeRadius + 2 * st.nodeRadius ≤ 2 * Hh := by omega
    have hqW : ((A + 2 * st.nodeRadius : ℤ) : ℚ) ≤ ((2 * W : ℤ) : ℚ) := by exact_mod_cast hzW
    have hqH : ((2 * B + 3 * st.nodeRadius + 2 * st.nodeRadius : ℤ) : ℚ) ≤ ((2 * Hh : ℤ) : ℚ) := by
      exact_mod_cast hzH
    push_cast at hqW hqH hx hy
    constructor <;> linarith

/-- C3 (amended): for every `k ≥ 1`, every value list of size
`count = 2 ^ k - 1` and every spacing > 0 and nodeRadius > 0 such that
`count * (spacing + nodeRadius) ≤ 2 ^ 22` (no `int` overflow, no `float`
rounding) and the spacing exceeds the radius, or equals it with an even
radius, the computed canvas does not clip any node:
`windowWidth ≥ x_i + nodeRadius` and `windowHeight ≥ y_i + nodeRadius` for the
position of every index `i` below the count. -/
theorem full_tree_not_clipped (st : State) (k : ℕ) (hk : 1 ≤ k)
    (hlen : st.values.length = 2 ^ k - 1) (hs : 0 < st.leafSpacing)
    (hr : 0 < st.nodeRadius)
    (hb : (st.values.length : ℤ) * (st.leafSpacing + st.nodeRadius) ≤ 4194304)
    (hsr : st.nodeRadius < st.leafSpacing ∨
      (st.nodeRadius = st.leafSpacing ∧ 2 ∣ st.nodeRadius))
    (i : ℕ) (hi : i < st.values.length) :
    (getNodePosition (init st) i).x + st.nodeRadius ≤ (init st).windowWidth ∧
      (getNodePosition (init st) i).y + st.nodeRadius ≤ (init st).windowHeight :=
  (full_tree_canvas_iff st k hk hlen hs hr hb).2 hsr i hi

theorem full_tree_not_clipped_witness :
    (getNodePosition (init sampleState) 2).x + sampleState.nodeRadius ≤
        (init sampleState).windowWidth ∧
      (getNodePosition (init sampleState) 2).y + sampleState.nodeRadius ≤
        (init sampleState).windowHeight :=
  full_tree_not_clipped sampleState 2 (by decide) (by decide) (by decide) (by decide)
    (by decide) (Or.inl (by decide)) 2 (by decide)

/-! ## Command line and `main` -/

theorem ite_cases {α : Type} {P : α → Prop} {c : Prop} [Decidable c] {a b : α}
    (ha : c → P a) (hb : ¬ c → P b) : P (if c then a else b) := by
  by_cases h : c
  · rw [if_pos h]; exact ha h
  · rw [if_neg h]; exact hb h

/-- The body of the loop of `handleArguments` writes neither `nodes` nor
`lines`. -/
theorem handleArgument_collections (argument : String) (rest : List String) (st : State) :
    KeepsCollections st (handleArgument argument rest st) := by
  unfold handleArgument
  repeat' (apply ite_cases <;> intro _)
  all_goals first
    | exact ⟨rfl, rfl⟩
    | (cases parseValue (rest.getD 0 "") <;> exact ⟨rfl, rfl⟩)
    | (generalize parseColor _ _ _ _ = pc
       rcases pc with ⟨_ | _, color⟩ <;> exact ⟨rfl, rfl⟩)

/-- The body of the loop of `handleArguments` only writes `values` for a
`--list=` argument, whose elements it appends. -/
theorem handleArgument_values (argument : String) (rest : List String) (st : State) :
    KeepsValues argument st (handleArgument argument rest st) := by
  unfold handleArgument
  repeat' (apply ite_cases <;> intro _)
  all_goals first
    | exact Or.inl rfl
    | (cases parseValue (rest.getD 0 "") <;> exact Or.inl rfl)
    | (generalize parseColor _ _ _ _ = pc
       rcases pc with ⟨_ | _, color⟩ <;> exact Or.inl rfl)
    | exact Or.inr ⟨by assumption, rfl⟩

/-- When every `--list=` argument is without element (in particular when
there is none), the loop of `handleArguments` leaves `values` as it was. -/
theorem handleArgumentsLoop_values (arguments : List String)
    (hlist : ∀ a ∈ arguments, isListArgument a = true → listElements a = []) :
    ∀ (consumed : ℕ) (st : State),
      (handleArgumentsLoop consumed arguments st).2.values = st.values := by
  induction arguments with
  | nil =>
    intro consumed st
    cases consumed <;> rfl
  | cons argument rest ih =>
    have ih1 := ih (fun a ha => hlist a (List.mem_cons_of_mem _ ha))
    intro consumed st
    cases consumed with
    | succ k => exact ih1 k st
    | zero =>
      have hb := handleArgument_values argument rest st
      rw [handleArgumentsLoop]
      have hkeep : (handleArgument argument rest st).2.values = st.values := by
        rcases hb with hb | ⟨hp, hb⟩
        · exact hb
        · rw [hb, hlist argument (List.mem_cons_self _ _) hp, List.append_nil]
      split
      · rename_i st1 heq
        rw [heq] at hkeep
        exact hkeep
      · rename_i k st1 heq
        rw [heq] at hkeep
        exact (ih1 k st1).trans hkeep

/-- Without a `--list=` argument that has an element, the value list is
empty when `handleArguments` returns. -/
theorem handleArguments_values_empty (arguments : List String)
    (hlist : ∀ a ∈ arguments.drop 1, isListArgument a = true → listElements a = []) :
    (handleArguments arguments State.initial).2.values = [] := by
  have h := handleArgumentsLoop_values (arguments.drop 1) hlist 0 State.initial
  unfold handleArguments
  split <;> rename_i heq <;> rw [heq] at h <;> exact h

/-- The loop of `handleArguments` writes neither `nodes` nor `lines`. -/
theorem handleArgumentsLoop_collections (arguments : List String) :
    ∀ (consumed : ℕ) (st : State),
      (handleArgumentsLoop consumed arguments st).2.nodes = st.nodes ∧
        (handleArgumentsLoop consumed arguments st).2.lines = st.lines := by
  induction arguments with
  | nil =>
    intro consumed st
    cases consumed <;> exact ⟨rfl, rfl⟩
  | cons argument rest ih =>
    intro consumed st
    cases consumed with
    | succ k => exact ih k st
    | zero =>
      have hb := handleArgument_collections argument rest st
      rw [handleArgumentsLoop]
      split
      · rename_i st1 heq
        rw [heq] at hb
        exact hb
      · rename_i k st1 heq
        rw [heq] at hb
        have := ih k st1
        exact ⟨this.1.trans hb.1, this.2.trans hb.2⟩

theorem handleArguments_collections (arguments : List String) (st : State) :
    (handleArguments arguments st).2.nodes = st.nodes ∧
      (handleArguments arguments st).2.lines = st.lines := by
  have h := handleArgumentsLoop_collections (arguments.drop 1) 0 st
  unfold handleArguments
  split <;> rename_i heq <;> rw [heq] at h <;> exact h

theorem handleArguments_true_values (arguments : List String) (st : State)
    (h : (handleArguments arguments st).1 = true) :
    (handleArguments arguments st).2.values ≠ [] := by
  unfold handleArguments at h ⊢
  split at h
  · simp at h
  · rename_i st1 heq
    simp only [heq]
    simp only [Bool.and_eq_true, Bool.not_eq_true', decide_eq_true_eq] at h
    intro hnil
    simp [hnil] at h

theorem main_of_false (arguments : List String) (st : State)
    (h : (handleArguments arguments st).1 = false) :
    main arguments st = (1, (handleArguments arguments st).2) := by
  unfold main
  cases hh : handleArguments arguments st with
  | mk ok st1 =>
    rw [hh] at h
    simp only at h
    subst h
    rfl

theorem main_of_true (arguments : List String) (st : State)
    (h : (handleArguments arguments st).1 = true) :
    main arguments st = (0, init (handleArguments arguments st).2) := by
  unfold main
  cases hh : handleArguments arguments st with
  | mk ok st1 =>
    rw [hh] at h
    simp only at h
    subst h
    rfl

/-- C4: when the value list is empty once the arguments are read (no
`--list=` argument, or none that yields an element), `handleArguments`
returns `false` and `main` returns the status 1 with the globals as
`handleArguments` left them, so `init` has not run, and the `nodes` and
`lines` collections are still empty. -/
theorem empty_list_fails (arguments : List String)
    (hempty : (handleArguments arguments State.initial).2.values = []) :
    (handleArguments arguments State.initial).1 = false ∧
      (main arguments State.initial).1 = 1 ∧
      (main arguments State.initial).2 = (handleArguments arguments State.initial).2 ∧
      (main arguments State.initial).2.nodes = [] ∧
      (main arguments State.initial).2.lines = [] := by
  have hfalse : (handleArguments arguments State.initial).1 = false := by
    by_contra hne
    exact handleArguments_true_values arguments State.initial (by simpa using hne) hempty
  have hc := handleArguments_collections arguments State.initial
  rw [main_of_false arguments State.initial hfalse]
  exact ⟨hfalse, rfl, rfl, hc.1, hc.2⟩

theorem empty_list_fails_witness :
    (handleArguments ["tree-it", "-d", "--list="] State.initial).1 = false ∧
      (main ["tree-it", "-d", "--list="] State.initial).1 = 1 ∧
      (main ["tree-it", "-d", "--list="] State.initial).2 =
        (handleArguments ["tree-it", "-d", "--list="] State.initial).2 ∧
      (main ["tree-it", "-d", "--list="] State.initial).2.nodes = [] ∧
      (main ["tree-it", "-d", "--list="] State.initial).2.lines = [] :=
  empty_list_fails ["tree-it", "-d", "--list="]
    (handleArguments_values_empty ["tree-it", "-d", "--list="] (by decide))

/-- C5 (as stated, refuted): `--node-spacing 0` and `--node-radius -5`, given
with a non-empty list, are stored as they are; `main` returns the status 0
and the layout is produced. -/
theorem nonpositive_config_accepted :
    (main ["tree-it", "--node-spacing", "0", "--list=1,2,3"] State.initial).1 = 0 ∧
      (main ["tree-it", "--node-spacing", "0", "--list=1,2,3"] State.initial).2.leafSpacing = 0 ∧
      (main ["tree-it", "--node-spacing", "0", "--list=1,2,3"] State.initial).2.nodes.length = 3 ∧
      (main ["tree-it", "--node-radius", "-5", "--list=1,2,3"] State.initial).1 = 0 ∧
      (main ["tree-it", "--node-radius", "-5", "--list=1,2,3"] State.initial).2.nodeRadius = -5 ∧
      (main ["tree-it", "--node-radius", "-5", "--list=1,2,3"] State.initial).2.lines.length = 2 := by
  decide

/-- Whenever `handleArguments` accepts the command line, `main` returns the
status 0 and `init` produces one node per value and one line per value but
the first, for a value list that is not empty. -/
theorem accepted_run_lays_out (arguments : List String)
    (h : (handleArguments arguments State.initial).1 = true) :
    (main arguments State.initial).1 = 0 ∧
      (main arguments State.initial).2.values ≠ [] ∧
      (main arguments State.initial).2.nodes.length =
        (main arguments State.initial).2.values.length ∧
      (main arguments State.initial).2.lines.length =
        (main arguments State.initial).2.values.length - 1 := by
  have hc := handleArguments_collections arguments State.initial
  have hn : (handleArguments arguments State.initial).2.nodes = [] := hc.1
  have hl : (handleArguments arguments State.initial).2.lines = [] := hc.2
  have hv := handleArguments_true_values arguments State.initial h
  rw [main_of_true arguments State.initial h]
  refine ⟨rfl, ?_, ?_, ?_⟩
  · simpa only [init_values] using hv
  · simp only [init_nodes, init_values, hn]
    simp
  · simp only [init_lines, init_values, hl]
    simp

/-- The option `--node-spacing` stores the value that `std::stoi` parses,
whatever its sign. -/
theorem handleArgument_spacing (valueString : String) (rest : List String) (st : State)
    (v : ℤ) (h : stoi valueString = some v) :
    handleArgument "--node-spacing" (valueString :: rest) st =
      (some 1, { st with leafSpacing := v }) := by
  unfold handleArgument
  rw [if_neg (by decide), if_neg (by decide), if_pos ⟨rfl, by simp⟩]
  simp only [List.getD_cons_zero, parseValue, h]

/-- The option `--node-radius` stores the value that `std::stoi` parses,
whatever its sign. -/
theorem handleArgument_radius (valueString : String) (rest : List String) (st : State)
    (v : ℤ) (h : stoi valueString = some v) :
    handleArgument "--node-radius" (valueString :: rest) st =
      (some 1, { st with nodeRadius := v }) := by
  unfold handleArgument
  rw [if_neg (by decide), if_neg (by decide), if_neg (fun hc => absurd hc.1 (by decide)),
    if_pos ⟨rfl, by simp⟩]
  simp only [List.getD_cons_zero, parseValue, h]

theorem ne_of_isListArgument {argument : String} (h : isListArgument argument = true)
    (option : String) (ho : isListArgument option = false) : argument ≠ option := by
  intro he
  rw [he, ho] at h
  exact Bool.false_ne_true h

/-- A `--list=` argument appends its elements to `values`. -/
theorem handleArgument_list (argument : String) (rest : List String) (st : State)
    (h : isListArgument argument = true) :
    handleArgument argument rest st =
      (some 0, { st with values := st.values ++ listElements argument }) := by
  have hne := ne_of_isListArgument h
  unfold handleArgument
  rw [if_neg (not_or.mpr ⟨hne _ (by decide), hne _ (by decide)⟩),
    if_neg (not_or.mpr ⟨hne _ (by decide), hne _ (by decide)⟩),
    if_neg (fun hc => hne _ (by decide) hc.1), if_neg (fun hc => hne _ (by decide) hc.1),
    if_neg (fun hc => hne _ (by decide) hc.1), if_neg (fun hc => hne _ (by decide) hc.1),
    if_neg (fun hc => hne _ (by decide) hc.1), if_neg (fun hc => hne _ (by decide) hc.1),
    if_neg (fun hc => hne _ (by decide) hc.1),
    if_neg (not_or.mpr ⟨hne _ (by decide), hne _ (by decide)⟩), if_pos h]

/-- C5 (amended): the sign of the spacing and of the radius is not checked:
for every spacing and every nodeRadius that `std::stoi` parses, positive or
not, given with `--node-spacing` and `--node-radius` before a `--list=`
argument of `n ≥ 1` elements, the two values are stored as they are, `main`
returns the status 0, and `init` runs on them and produces `n` nodes and
`n - 1` lines. -/
theorem config_sign_not_checked (spacingString radiusString listArgument : String)
    (spacing radius : ℤ) (hs : stoi spacingString = some spacing)
    (hr : stoi radiusString = some radius) (hlist : isListArgument listArgument = true)
    (helems : listElements listArgument ≠ []) :
    handleArguments
        ["tree-it", "--node-spacing", spacingString, "--node-radius", radiusString, listArgument]
        State.initial =
        (true, configuredState spacing radius (listElements listArgument)) ∧
      main
        ["tree-it", "--node-spacing", spacingString, "--node-radius", radiusString, listArgument]
        State.initial =
        (0, init (configuredState spacing radius (listElements listArgument))) ∧
      (init (configuredState spacing radius (listElements listArgument))).leafSpacing = spacing ∧
      (init (configuredState spacing radius (listElements listArgument))).nodeRadius = radius ∧
      (init (configuredState spacing radius (listElements listArgument))).nodes.length =
        (listElements listArgument).length ∧
      (init (configuredState spacing radius (listElements listArgument))).lines.length =
        (listElements listArgument).length - 1 := by
  have hargs : handleArguments
      ["tree-it", "--node-spacing", spacingString, "--node-radius", radiusString, listArgument]
      State.initial =
      (true, configuredState spacing radius (listElements listArgument)) := by
    unfold handleArguments
    simp only [List.drop_succ_cons, List.drop_zero]
    rw [handleArgumentsLoop, handleArgument_spacing _ _ _ _ hs]
    simp only [handleArgumentsLoop]
    rw [handleArgument_radius _ _ _ _ hr]
    simp only [handleArgumentsLoop]
    rw [handleArgument_list _ _ _ hlist]
    simp [configuredState, State.initial, helems]
  refine ⟨hargs, ?_, init_leafSpacing _, init_nodeRadius _, ?_, ?_⟩
  · have htrue : (handleArguments
        ["tree-it", "--node-spacing", spacingString, "--node-radius", radiusString,
          listArgument] State.initial).1 = true := by
      rw [hargs]
    rw [main_of_true _ _ htrue, hargs]
  · rw [init_nodes]
    simp [configuredState, State.initial]
  · rw [init_lines]
    simp [configuredState, State.initial]

theorem config_sign_not_checked_witness :
    handleArguments ["tree-it", "--node-spacing", "0", "--node-radius", "-5", "--list=1,2,3"]
        State.initial =
        (true, configuredState 0 (-5) (listElements "--list=1,2,3")) ∧
      main ["tree-it", "--node-spacing", "0", "--node-radius", "-5", "--list=1,2,3"]
        State.initial =
        (0, init (configuredState 0 (-5) (listElements "--list=1,2,3"))) ∧
      (init (configuredState 0 (-5) (listElements "--list=1,2,3"))).leafSpacing = 0 ∧
      (init (configuredState 0 (-5) (listElements "--list=1,2,3"))).nodeRadius = -5 ∧
      (init (configuredState 0 (-5) (listElements "--list=1,2,3"))).nodes.length =
        (listElements "--list=1,2,3").length ∧
      (init (configuredState 0 (-5) (listElements "--list=1,2,3"))).lines.length =
        (listElements "--list=1,2,3").length - 1 :=
  config_sign_not_checked "0" "-5" "--list=1,2,3" 0 (-5) (by decide) (by decide) (by decide)
    (by decide)

/-! ## Trimming of the line endpoints, over the real numbers -/

theorem Vector2.eq_iff {K : Type} (p q : Vector2 K) : p = q ↔ p.x = q.x ∧ p.y = q.y := by
  cases p; cases q; simp

theorem direction_sq_pos {p q : Vector2 ℝ} (h : p ≠ q) :
    0 < (q.x - p.x) * (q.x - p.x) + (q.y - p.y) * (q.y - p.y) := by
  have hne : ¬ (p.x = q.x ∧ p.y = q.y) := fun hc => h ((Vector2.eq_iff p q).mpr hc)
  by_cases hx : p.x = q.x
  · have hy : q.y - p.y ≠ 0 := fun hc => hne ⟨hx, by linarith⟩
    have := mul_self_pos.mpr hy
    nlinarith [mul_self_nonneg (q.x - p.x)]
  · have hx1 : q.x - p.x ≠ 0 := fun hc => hx (by linarith)
    have := mul_self_pos.mpr hx1
    nlinarith [mul_self_nonneg (q.y - p.y)]

theorem length_pos {p q : Vector2 ℝ} (h : p ≠ q) :
    0 < Vector2Length Real.sqrt (Vector2Subtract q p) :=
  Real.sqrt_pos.mpr (direction_sq_pos h)

theorem trimLineEndpoint_of_ne (st : State) {p q : Vector2 ℝ} (h : p ≠ q) :
    trimLineEndpoint Real.sqrt st p q =
      ⟨p.x + (q.x - p.x) * ((st.nodeRadius : ℝ) / Vector2Length Real.sqrt (Vector2Subtract q p)),
        p.y + (q.y - p.y) * ((st.nodeRadius : ℝ) / Vector2Length Real.sqrt (Vector2Subtract q p))⟩ := by
  unfold trimLineEndpoint
  rw [if_neg (ne_of_gt (length_pos h))]
  rfl

theorem trimLineEndpoint_self (st : State) (p : Vector2 ℝ) :
    trimLineEndpoint Real.sqrt st p p = p := by
  unfold trimLineEndpoint
  rw [if_pos]
  simp [Vector2Length, Vector2Subtract]

/-- C9: `trimLineEndpoint(from, to)` with a node radius r > 0, read over the
real numbers: when `from ≠ to` the result is at Euclidean distance exactly r
from `from`; when `from = to` the result is `from`, the division by the zero
length not being reached. -/
theorem trimLineEndpoint_distance (st : State) (hr : 0 < st.nodeRadius) (p q : Vector2 ℝ) :
    (p ≠ q →
        Real.sqrt (((trimLineEndpoint Real.sqrt st p q).x - p.x) ^ 2 +
          ((trimLineEndpoint Real.sqrt st p q).y - p.y) ^ 2) = st.nodeRadius) ∧
      trimLineEndpoint Real.sqrt st p p = p := by
  refine ⟨fun h => ?_, trimLineEndpoint_self st p⟩
  have hL := length_pos h
  have hsq : Vector2Length Real.sqrt (Vector2Subtract q p) *
      Vector2Length Real.sqrt (Vector2Subtract q p) =
      (q.x - p.x) * (q.x - p.x) + (q.y - p.y) * (q.y - p.y) :=
    Real.mul_self_sqrt (le_of_lt (direction_sq_pos h))
  have hr0 : (0 : ℝ) ≤ st.nodeRadius := by exact_mod_cast le_of_lt hr
  rw [trimLineEndpoint_of_ne st h]
  generalize Vector2Length Real.sqrt (Vector2Subtract q p) = L at hL hsq
  have key : (p.x + (q.x - p.x) * ((st.nodeRadius : ℝ) / L) - p.x) ^ 2 +
      (p.y + (q.y - p.y) * ((st.nodeRadius : ℝ) / L) - p.y) ^ 2 =
      (st.nodeRadius : ℝ) * st.nodeRadius := by
    have hL0 : L ≠ 0 := ne_of_gt hL
    field_simp
    nlinarith [hsq]
  rw [key, Real.sqrt_mul_self hr0]

theorem trimLineEndpoint_distance_witness :
    Real.sqrt (((trimLineEndpoint Real.sqrt sampleState ⟨0, 0⟩ ⟨3, 4⟩).x - 0) ^ 2 +
        ((trimLineEndpoint Real.sqrt sampleState ⟨0, 0⟩ ⟨3, 4⟩).y - 0) ^ 2) = (20 : ℤ) ∧
      trimLineEndpoint Real.sqrt sampleState ⟨0, 0⟩ ⟨0, 0⟩ = ⟨0, 0⟩ :=
  ⟨(trimLineEndpoint_distance sampleState (by decide) ⟨0, 0⟩ ⟨3, 4⟩).1
      (fun h => by
        have := congrArg Vector2.x h
        norm_num at this),
    (trimLineEndpoint_distance sampleState (by decide) ⟨0, 0⟩ ⟨3, 4⟩).2⟩

/-- For `from ≠ to` the trimmed endpoint is on the segment exactly when the
radius is at most the length of the segment. -/
theorem onSegment_trim_iff (st : State) (hr : 0 < st.nodeRadius) {p q : Vector2 ℝ}
    (h : p ≠ q) :
    OnSegment p q (trimLineEndpoint Real.sqrt st p q) ↔
      (st.nodeRadius : ℝ) ≤ Vector2Length Real.sqrt (Vector2Subtract q p) := by
  have hL := length_pos h
  have hr0 : (0 : ℝ) < st.nodeRadius := by exact_mod_cast hr
  rw [trimLineEndpoint_of_ne st h]
  generalize Vector2Length Real.sqrt (Vector2Subtract q p) = L at hL
  have ht : 0 < (st.nodeRadius : ℝ) / L := div_pos hr0 hL
  constructor
  · rintro ⟨t, _, h1, hx, hy⟩
    simp only at hx hy
    have hxy : ¬ (p.x = q.x ∧ p.y = q.y) := fun hc => h ((Vector2.eq_iff p q).mpr hc)
    have htt : t = (st.nodeRadius : ℝ) / L := by
      by_cases hx0 : p.x = q.x
      · have hy0 : q.y - p.y ≠ 0 := fun hc => hxy ⟨hx0, by linarith⟩
        have : (q.y - p.y) * ((st.nodeRadius : ℝ) / L) = (q.y - p.y) * t := by linarith
        exact (mul_left_cancel₀ hy0 this).symm
      · have hx1 : q.x - p.x ≠ 0 := fun hc => hx0 (by linarith)
        have : (q.x - p.x) * ((st.nodeRadius : ℝ) / L) = (q.x - p.x) * t := by linarith
        exact (mul_left_cancel₀ hx1 this).symm
    rw [htt] at h1
    exact (div_le_one hL).mp h1
  · intro hle
    exact ⟨(st.nodeRadius : ℝ) / L, le_of_lt ht, (div_le_one hL).mpr hle, by simp only; ring,
      by simp only; ring⟩

/-- C10 (as stated, refuted): with the default radius 20, trimming the
segment from (0, 0) to (1, 0) at its start gives the point (20, 0), which is
beyond (1, 0) and so not on the segment. -/
theorem trimmed_endpoint_off_segment :
    trimLineEndpoint Real.sqrt sampleState ⟨0, 0⟩ ⟨1, 0⟩ = ⟨20, 0⟩ ∧
      ¬ OnSegment ⟨0, 0⟩ ⟨1, 0⟩ (trimLineEndpoint Real.sqrt sampleState ⟨0, 0⟩ ⟨1, 0⟩) := by
  have hne : (⟨0, 0⟩ : Vector2 ℝ) ≠ ⟨1, 0⟩ := fun h => by
    have := congrArg Vector2.x h
    norm_num at this
  have hval : trimLineEndpoint Real.sqrt sampleState ⟨0, 0⟩ ⟨1, 0⟩ = ⟨20, 0⟩ := by
    rw [trimLineEndpoint_of_ne sampleState hne]
    norm_num [Vector2Length, Vector2Subtract, sampleState, State.initial]
  refine ⟨hval, ?_⟩
  rw [hval]
  rintro ⟨t, _, h1, hx, _⟩
  norm_num at hx
  linarith

/-- C10 (amended): for `from ≠ to` and a node radius r > 0, the point that
`trimLineEndpoint(from, to)` returns is `from + t * (to - from)` with
`t = r / |to - from| > 0`, a point of the ray from `from` through `to`; it
lies on the segment from `from` to `to` exactly when `r ≤ |to - from|`. -/
theorem trimLineEndpoint_on_ray (st : State) (hr : 0 < st.nodeRadius) (p q : Vector2 ℝ)
    (h : p ≠ q) :
    0 < (st.nodeRadius : ℝ) / Vector2Length Real.sqrt (Vector2Subtract q p) ∧
      (trimLineEndpoint Real.sqrt st p q).x =
        p.x + (st.nodeRadius : ℝ) / Vector2Length Real.sqrt (Vector2Subtract q p) *
          (q.x - p.x) ∧
      (trimLineEndpoint Real.sqrt st p q).y =
        p.y + (st.nodeRadius : ℝ) / Vector2Length Real.sqrt (Vector2Subtract q p) *
          (q.y - p.y) ∧
      (OnSegment p q (trimLineEndpoint Real.sqrt st p q) ↔
        (st.nodeRadius : ℝ) ≤ Vector2Length Real.sqrt (Vector2Subtract q p)) := by
  have hL := length_pos h
  have hr0 : (0 : ℝ) < st.nodeRadius := by exact_mod_cast hr
  refine ⟨div_pos hr0 hL, ?_, ?_, onSegment_trim_iff st hr h⟩
  · rw [trimLineEndpoint_of_ne st h]
    simp only
    ring
  · rw [trimLineEndpoint_of_ne st h]
    simp only
    ring

theorem trimLineEndpoint_on_ray_witness :
    0 < ((sampleState.nodeRadius : ℤ) : ℝ) /
        Vector2Length Real.sqrt (Vector2Subtract ⟨3, 4⟩ ⟨0, 0⟩) ∧
      (trimLineEndpoint Real.sqrt sampleState ⟨0, 0⟩ ⟨3, 4⟩).x =
        0 + ((sampleState.nodeRadius : ℤ) : ℝ) /
          Vector2Length Real.sqrt (Vector2Subtract ⟨3, 4⟩ ⟨0, 0⟩) * (3 - 0) ∧
      (trimLineEndpoint Real.sqrt sampleState ⟨0, 0⟩ ⟨3, 4⟩).y =
        0 + ((sampleState.nodeRadius : ℤ) : ℝ) /
          Vector2Length Real.sqrt (Vector2Subtract ⟨3, 4⟩ ⟨0, 0⟩) * (4 - 0) ∧
      (OnSegment ⟨0, 0⟩ ⟨3, 4⟩ (trimLineEndpoint Real.sqrt sampleState ⟨0, 0⟩ ⟨3, 4⟩) ↔
        ((sampleState.nodeRadius : ℤ) : ℝ) ≤
          Vector2Length Real.sqrt (Vector2Subtract ⟨3, 4⟩ ⟨0, 0⟩)) :=
  trimLineEndpoint_on_ray sampleState (by decide) ⟨0, 0⟩ ⟨3, 4⟩ (fun h => by
    have := congrArg Vector2.x h
    norm_num at this)

/-- In `draw` the trimming stays on the segment: for spacing > 0 and
nodeRadius > 0 in the range without overflow or rounding, both trimmed
endpoints of every line that `init` produced lie on the segment of the line,
whose length is at least one level step. -/
theorem init_lines_trim_onSegment (st : State) (hs : 0 < st.leafSpacing)
    (hr : 0 < st.nodeRadius)
    (hb : (st.values.length : ℤ) * (st.leafSpacing + st.nodeRadius) ≤ 4194304)
    (hl : st.lines = []) (line : Line) (hline : line ∈ (init st).lines) :
    OnSegment (line.start.map (fun c : ℚ => (c : ℝ))) (line.end_.map (fun c : ℚ => (c : ℝ)))
        (trimLineEndpoint Real.sqrt (init st) (line.start.map (fun c : ℚ => (c : ℝ)))
          (line.end_.map (fun c : ℚ => (c : ℝ)))) ∧
      OnSegment (line.end_.map (fun c : ℚ => (c : ℝ))) (line.start.map (fun c : ℚ => (c : ℝ)))
        (trimLineEndpoint Real.sqrt (init st) (line.end_.map (fun c : ℚ => (c : ℝ)))
          (line.start.map (fun c : ℚ => (c : ℝ)))) := by
  rw [init_lines, hl, List.nil_append, List.mem_map] at hline
  obtain ⟨k, hk, rfl⟩ := hline
  have hkn : k + 1 < st.values.length := by
    simp only [List.mem_reverse, List.mem_range] at hk
    omega
  have hpn : parentIndex (k + 1) < st.values.length := by
    unfold parentIndex
    omega
  have hri : 0 < (init st).nodeRadius := by rw [init_nodeRadius]; exact hr
  have hsQ : (0 : ℝ) < st.leafSpacing := by exact_mod_cast hs
  have hrQ : (0 : ℝ) < st.nodeRadius := by exact_mod_cast hr
  have hy : (getNodePosition (init st) (parentIndex (k + 1))).y +
      ((st.leafSpacing : ℚ) + st.nodeRadius) = (getNodePosition (init st) (k + 1)).y := by
    rw [init_y st hs hr hb hpn, init_y st hs hr hb hkn,
      ← levelOf_parentIndex (Nat.succ_le_succ (Nat.zero_le k))]
    push_cast
    ring
  have hyR : ((getNodePosition (init st) (parentIndex (k + 1))).y : ℝ) +
      ((st.leafSpacing : ℝ) + st.nodeRadius) = ((getNodePosition (init st) (k + 1)).y : ℝ) := by
    exact_mod_cast hy
  simp only [lineAt, Vector2.map]
  generalize getNodePosition (init st) (k + 1) = a at hyR
  generalize getNodePosition (init st) (parentIndex (k + 1)) = b at hyR
  have hab : (⟨(a.x : ℝ), (a.y : ℝ)⟩ : Vector2 ℝ) ≠ ⟨(b.x : ℝ), (b.y : ℝ)⟩ := fun hc => by
    have := congrArg Vector2.y hc
    simp only at this
    linarith
  constructor
  · rw [onSegment_trim_iff (init st) hri hab, init_nodeRadius]
    apply Real.le_sqrt_of_sq_le
    simp only [Vector2Subtract]
    nlinarith [mul_self_nonneg ((b.x : ℝ) - a.x)]
  · rw [onSegment_trim_iff (init st) hri (Ne.symm hab), init_nodeRadius]
    apply Real.le_sqrt_of_sq_le
    simp only [Vector2Subtract]
    nlinarith [mul_self_nonneg ((a.x : ℝ) - b.x)]

/-! ## The sizing index -/

theorem floor_half_add (A s : ℤ) : ⌊(A : ℚ) / 2 + s⌋ = (A + 2 * s) / 2 := by
  have e : (A : ℚ) / 2 + s = ((A + 2 * s : ℤ) : ℚ) / ((2 : ℕ) : ℚ) := by
    push_cast
    ring
  rw [e, Rat.floor_intCast_div_natCast]
  rfl

theorem half_add_eq_iff (A s W : ℤ) (hW : W = (A + 2 * s) / 2) :
    (W : ℚ) = (A : ℚ) / 2 + s ↔ 2 ∣ A := by
  constructor
  · intro h
    have hz : 2 * W = A + 2 * s := by
      have : ((2 * W : ℤ) : ℚ) = ((A + 2 * s : ℤ) : ℚ) := by
        push_cast
        linarith
      exact_mod_cast this
    omega
  · intro h
    have hz : 2 * W = A + 2 * s := by omega
    have : ((2 * W : ℤ) : ℚ) = ((A + 2 * s : ℤ) : ℚ) := by exact_mod_cast hz
    push_cast at this
    linarith

/-- C12 (as stated, refuted): for one node with spacing 40 and radius 25 the
sizing position is (32.5, 37.5); the window is 72 by 77, which is neither
32.5 + 40 nor 37.5 + 40.  And for one node with spacing `3 * 2 ^ 29` and
radius `2 ^ 28`, whose sum is even, the width `7 * 2 ^ 27 + 3 * 2 ^ 29` is
above `INT_MAX` and `windowWidth` is `INT_MIN`. -/
theorem window_size_not_exact :
    (0 < oddRadiusState.leafSpacing ∧ 0 < oddRadiusState.nodeRadius ∧
      (init oddRadiusState).windowWidth = 72 ∧
      (init oddRadiusState).windowHeight = 77 ∧
      ((init oddRadiusState).windowWidth : ℚ) ≠
        (getNodePosition (init oddRadiusState)
          (2 ^ (floorLog2 oddRadiusState.values.length + 1) - 2)).x +
          (oddRadiusState.leafSpacing : ℚ) ∧
      ((init oddRadiusState).windowHeight : ℚ) ≠
        (getNodePosition (init oddRadiusState)
          (2 ^ (floorLog2 oddRadiusState.values.length + 1) - 2)).y +
          (oddRadiusState.leafSpacing : ℚ)) ∧
      (0 < hugeState.leafSpacing ∧ 0 < hugeState.nodeRadius ∧
        2 ∣ hugeState.leafSpacing + hugeState.nodeRadius ∧
        ((init hugeState).windowWidth : ℚ) ≠
          (getNodePosition (init hugeState)
            (2 ^ (floorLog2 hugeState.values.length + 1) - 2)).x +
            (hugeState.leafSpacing : ℚ)) := by
  have hlog : floorLog2 oddRadiusState.values.length = 0 := by
    simp [oddRadiusState, floorLog2]
  have hx := init_x_rightMost oddRadiusState (by decide) (by decide) (by decide) (by decide)
  have hy := init_y_rightMost oddRadiusState (by decide) (by decide) (by decide) (by decide)
  have hw := init_windowWidth_eq oddRadiusState (by decide) (by decide) (by decide) (by decide)
  have hh := init_windowHeight_eq oddRadiusState (by decide) (by decide) (by decide) (by decide)
  rw [hlog] at hx hy hw hh
  have hw72 : (init oddRadiusState).windowWidth = 72 := by
    rw [hw]; norm_num [oddRadiusState, State.initial]
  have hh77 : (init oddRadiusState).windowHeight = 77 := by
    rw [hh]; norm_num [oddRadiusState, State.initial]
  have hlogH : floorLog2 hugeState.values.length = 0 := by
    simp [hugeState, floorLog2]
  refine ⟨⟨by decide, by decide, hw72, hh77, ?_, ?_⟩, ⟨by decide, by decide, by decide, ?_⟩⟩
  · rw [hlog, hx, hw72]; norm_num [oddRadiusState, State.initial]
  · rw [hlog, hy, hh77]; norm_num [oddRadiusState, State.initial]
  · rw [hlogH, show (2 ^ (0 + 1) - 2 : ℕ) = 0 from rfl, huge_window.1, huge_window.2]
    norm_num [hugeState, State.initial]

/-- C12 (amended): for every count ≥ 1, spacing > 0 and nodeRadius > 0 with
`count * (spacing + nodeRadius) ≤ 2 ^ 22`, the range in which the layout is
computed without overflow or rounding, with
`rightmostIndex = 2 ^ (treeHeight + 1) - 2` and
`treeHeight = floor(log2(count))`, the integers `windowWidth` and
`windowHeight` that `init` computes are the integer parts of
`getNodePosition(rightmostIndex).x + spacing` and of
`getNodePosition(rightmostIndex).y + spacing`; the width equals the former
exactly when `spacing + nodeRadius` is even, the height equals the latter
exactly when `nodeRadius` is even. -/
theorem window_size_truncated (st : State) (hv : st.values ≠ []) (hs : 0 < st.leafSpacing)
    (hr : 0 < st.nodeRadius)
    (hb : (st.values.length : ℤ) * (st.leafSpacing + st.nodeRadius) ≤ 4194304) :
    (init st).windowWidth =
        ⌊(getNodePosition (init st) (2 ^ (floorLog2 st.values.length + 1) - 2)).x +
          (st.leafSpacing : ℚ)⌋ ∧
      (init st).windowHeight =
        ⌊(getNodePosition (init st) (2 ^ (floorLog2 st.values.length + 1) - 2)).y +
          (st.leafSpacing : ℚ)⌋ ∧
      (((init st).windowWidth : ℚ) =
          (getNodePosition (init st) (2 ^ (floorLog2 st.values.length + 1) - 2)).x +
            (st.leafSpacing : ℚ) ↔ 2 ∣ st.leafSpacing + st.nodeRadius) ∧
      (((init st).windowHeight : ℚ) =
          (getNodePosition (init st) (2 ^ (floorLog2 st.values.length + 1) - 2)).y +
            (st.leafSpacing : ℚ) ↔ 2 ∣ st.nodeRadius) := by
  have hW := init_windowWidth_eq st hv hs hr hb
  have hH := init_windowHeight_eq st hv hs hr hb
  rw [init_x_rightMost st hv hs hr hb, init_y_rightMost st hv hs hr hb]
  have hodd : (st.leafSpacing + st.nodeRadius) * (2 ^ (floorLog2 st.values.length + 1) - 1) =
      2 * ((st.leafSpacing + st.nodeRadius) * 2 ^ floorLog2 st.values.length) -
        (st.leafSpacing + st.nodeRadius) := by
    ring
  refine ⟨?_, ?_, ?_, ?_⟩
  · rw [floor_half_add, hW]
  · rw [floor_half_add, hH]
  · rw [half_add_eq_iff _ _ _ hW, hodd]
    omega
  · rw [half_add_eq_iff _ _ _ hH]
    omega

theorem window_size_truncated_witness :
    (init sampleState).windowWidth =
        ⌊(getNodePosition (init sampleState)
            (2 ^ (floorLog2 sampleState.values.length + 1) - 2)).x +
          (sampleState.leafSpacing : ℚ)⌋ ∧
      (init sampleState).windowHeight =
        ⌊(getNodePosition (init sampleState)
            (2 ^ (floorLog2 sampleState.values.length + 1) - 2)).y +
          (sampleState.leafSpacing : ℚ)⌋ ∧
      (((init sampleState).windowWidth : ℚ) =
          (getNodePosition (init sampleState)
            (2 ^ (floorLog2 sampleState.values.length + 1) - 2)).x +
            (sampleState.leafSpacing : ℚ) ↔ 2 ∣ sampleState.leafSpacing + sampleState.nodeRadius) ∧
      (((init sampleState).windowHeight : ℚ) =
          (getNodePosition (init sampleState)
            (2 ^ (floorLog2 sampleState.values.length + 1) - 2)).y +
            (sampleState.leafSpacing : ℚ) ↔ 2 ∣ sampleState.nodeRadius) :=
  window_size_truncated sampleState (by decide) (by decide) (by decide) (by decide)

/-! ## Children -/

theorem slot_children {H i : ℕ} (h : levelOf i + 1 ≤ H) :
    slot H (2 * i + 1) + slot H (2 * i + 2) = 2 * slot H i := by
  have hexp : H - levelOf i = (H - (levelOf i + 1)) + 1 := by omega
  simp only [slot, levelOf_left, levelOf_right]
  rw [hexp, pow_succ]
  ring

/-- C13 (as stated, refuted): with eight values, spacing `2 ^ 30 - 256` and
radius 256 the children 1 and 2 of the root have the abscissa 0 of the root:
the left child is not strictly left of its parent, nor the right child
strictly right of it.  With three values and spacing = nodeRadius = 16777210
the children are at `x = 16777210` and `x = 50331632`, the root at
`x = 33554420`: the sum is not twice the abscissa of the root.  With three
values, spacing 16777216 and radius 1 the root is at `y = 1.5` and its
children at `y = 16777218`, not one level step, 16777217, below. -/
theorem child_not_beside_parent :
    (0 < overflowState.leafSpacing ∧ 0 < overflowState.nodeRadius ∧
      2 * 0 + 1 < overflowState.values.length ∧ 2 * 0 + 2 < overflowState.values.length ∧
      ¬ (getNodePosition (init overflowState) (2 * 0 + 1)).x <
        (getNodePosition (init overflowState) 0).x ∧
      ¬ (getNodePosition (init overflowState) 0).x <
        (getNodePosition (init overflowState) (2 * 0 + 2)).x) ∧
      (0 < roundingState.leafSpacing ∧ 0 < roundingState.nodeRadius ∧
        2 * 0 + 1 < roundingState.values.length ∧ 2 * 0 + 2 < roundingState.values.length ∧
        (getNodePosition (init roundingState) (2 * 0 + 1)).x +
            (getNodePosition (init roundingState) (2 * 0 + 2)).x ≠
          2 * (getNodePosition (init roundingState) 0).x) ∧
      (0 < stepState.leafSpacing ∧ 0 < stepState.nodeRadius ∧
        2 * 0 + 1 < stepState.values.length ∧ 2 * 0 + 2 < stepState.values.length ∧
        (getNodePosition (init stepState) (2 * 0 + 1)).y ≠
          (getNodePosition (init stepState) 0).y +
            ((stepState.leafSpacing : ℚ) + stepState.nodeRadius)) := by
  refine ⟨⟨by decide, by decide, by decide, by decide, ?_, ?_⟩,
    ⟨by decide, by decide, by decide, by decide, ?_⟩,
    ⟨by decide, by decide, by decide, by decide, ?_⟩⟩
  · rw [overflow_x_zero.1, overflow_x_zero.2.1]
    exact lt_irrefl 0
  · rw [overflow_x_zero.1, overflow_x_zero.2.2]
    exact lt_irrefl 0
  · rw [rounding_x.1, rounding_x.2.1, rounding_x.2.2]
    norm_num
  · rw [step_y.1, step_y.2]
    norm_num [stepState, State.initial]

/-- C13 (amended): for every count ≥ 1 and every index `i` whose two children
`2 * i + 1` and `2 * i + 2` are below the count, the children have the same
`y`, whatever the spacing and the radius; and for spacing > 0 and
nodeRadius > 0 with `count * (spacing + nodeRadius) ≤ 2 ^ 22`, the range in
which the layout is computed without overflow or rounding, the children are
placed symmetrically under their parent: their `y` is one level step
`spacing + nodeRadius` more than the `y` of the parent, and their abscissas
satisfy `x_left + x_right = 2 * x_i` and `x_left < x_i < x_right`. -/
theorem children_symmetric (st : State) (_hv : st.values ≠ []) (i : ℕ)
    (h1 : 2 * i + 1 < st.values.length) (h2 : 2 * i + 2 < st.values.length) :
    (getNodePosition (init st) (2 * i + 1)).y = (getNodePosition (init st) (2 * i + 2)).y ∧
      (0 < st.leafSpacing → 0 < st.nodeRadius →
        (st.values.length : ℤ) * (st.leafSpacing + st.nodeRadius) ≤ 4194304 →
        (getNodePosition (init st) (2 * i + 1)).y =
          (getNodePosition (init st) i).y + ((st.leafSpacing : ℚ) + st.nodeRadius) ∧
        (getNodePosition (init st) (2 * i + 1)).x + (getNodePosition (init st) (2 * i + 2)).x =
          2 * (getNodePosition (init st) i).x ∧
        (getNodePosition (init st) (2 * i + 1)).x < (getNodePosition (init st) i).x ∧
        (getNodePosition (init st) i).x < (getNodePosition (init st) (2 * i + 2)).x) := by
  have hi : i < st.values.length := by omega
  have hl1 := levelOf_le_floorLog2 h1
  have hl2 := levelOf_le_floorLog2 h2
  refine ⟨?_, fun hs hr hb => ⟨?_, ?_, ?_, ?_⟩⟩
  · exact getNodePosition_y_congr _ (by rw [levelOf_left, levelOf_right])
  · rw [init_y st hs hr hb h1, init_y st hs hr hb hi, levelOf_left]
    push_cast
    ring
  · rw [init_x st hs hr hb h1, init_x st hs hr hb h2, init_x st hs hr hb hi]
    have hsum := slot_children (H := floorLog2 st.values.length) (i := i)
      (by rw [← levelOf_left]; exact hl1)
    have hq : (slot (floorLog2 st.values.length) (2 * i + 1) : ℚ) +
        slot (floorLog2 st.values.length) (2 * i + 2) =
        2 * slot (floorLog2 st.values.length) i := by
      exact_mod_cast hsum
    linear_combination ((st.leafSpacing : ℚ) + st.nodeRadius) / 2 * hq
  · exact init_x_lt_of_slot_lt st hs hr hb h1 hi (slot_lt_of_left_subtree InSubtree.self hl1)
  · exact init_x_lt_of_slot_lt st hs hr hb hi h2 (slot_lt_of_right_subtree InSubtree.self hl2)

theorem children_symmetric_witness :
    ((getNodePosition (init sampleState) 1).y = (getNodePosition (init sampleState) 2).y ∧
      (getNodePosition (init sampleState) 1).y =
        (getNodePosition (init sampleState) 0).y +
          ((sampleState.leafSpacing : ℚ) + sampleState.nodeRadius) ∧
      (getNodePosition (init sampleState) 1).x + (getNodePosition (init sampleState) 2).x =
        2 * (getNodePosition (init sampleState) 0).x ∧
      (getNodePosition (init sampleState) 1).x < (getNodePosition (init sampleState) 0).x ∧
      (getNodePosition (init sampleState) 0).x < (getNodePosition (init sampleState) 2).x) ∧
      sampleState.values = ["A", "B", "C"] ∧ sampleState.leafSpacing = 40 ∧
      sampleState.nodeRadius = 20 ∧ (init sampleState).nodes.length = 3 ∧
      (init sampleState).lines.length = 2 ∧ (init sampleState).treeHeight = 1 :=
  ⟨⟨(children_symmetric sampleState (by decide) 0 (by decide) (by decide)).1,
      (children_symmetric sampleState (by decide) 0 (by decide) (by decide)).2
        (by decide) (by decide) (by decide)⟩,
    rfl, rfl, rfl, by decide, by decide, by
      rw [init_treeHeight]
      simp [sampleState, State.initial, floorLog2, Nat.log]⟩

/-! ## The single-node scenario -/

/-- C14: for the single value A with spacing 40 and nodeRadius 20, the layout
has `treeHeight = 0`, exactly one node and no line, the node carries A at
the position (30, 30), and `windowWidth = windowHeight = 70`. -/
theorem single_node_layout :
    singleState.values = ["A"] ∧ singleState.leafSpacing = 40 ∧ singleState.nodeRadius = 20 ∧
      (init singleState).treeHeight = 0 ∧
      (init singleState).nodes = [{ position := ⟨30, 30⟩, value := "A" }] ∧
      (init singleState).lines = [] ∧
      (init singleState).windowWidth = 70 ∧ (init singleState).windowHeight = 70 := by
  have hlog : floorLog2 singleState.values.length = 0 := by
    simp [singleState, floorLog2]
  have hpos : getNodePosition (init singleState) 0 = ⟨30, 30⟩ := by
    rw [Vector2.eq_iff]
    have hx := init_x_rightMost singleState (by decide) (by decide) (by decide) (by decide)
    have hy := init_y_rightMost singleState (by decide) (by decide) (by decide) (by decide)
    rw [hlog] at hx hy
    constructor
    · rw [show (0 : ℕ) = 2 ^ (0 + 1) - 2 from rfl, hx]
      norm_num [singleState, State.initial]
    · rw [show (0 : ℕ) = 2 ^ (0 + 1) - 2 from rfl, hy]
      norm_num [singleState, State.initial]
  refine ⟨rfl, rfl, rfl, ?_, ?_, ?_, ?_, ?_⟩
  · rw [init_treeHeight, hlog]; rfl
  · have hn : (init singleState).nodes = [nodeAt (init singleState) 0] := by
      rw [init_nodes]
      rfl
    have hv : (init singleState).values.getD 0 "" = "A" := by
      rw [init_values]
      rfl
    rw [hn, nodeAt, hpos, hv]
  · rw [init_lines]
    simp [singleState, State.initial]
  · rw [init_windowWidth_eq singleState (by decide) (by decide) (by decide) (by decide), hlog]
    norm_num [singleState, State.initial]
  · rw [init_windowHeight_eq singleState (by decide) (by decide) (by decide) (by decide), hlog]
    norm_num [singleState, State.initial]

/-! ## Repeated runs -/

theorem init_nodeAt_congr {st1 st2 : State} (hv : st1.values = st2.values)
    (hs : st1.leafSpacing = st2.leafSpacing) (hr : st1.nodeRadius = st2.nodeRadius) (i : ℕ) :
    nodeAt (init st1) i = nodeAt (init st2) i :=
  nodeAt_congr (by rw [init_values, init_values, hv])
    (by rw [init_treeHeight, init_treeHeight, hv])
    (by rw [init_leafSpacing, init_leafSpacing, hs])
    (by rw [init_nodeRadius, init_nodeRadius, hr]) i

theorem init_position_congr {st1 st2 : State} (hv : st1.values = st2.values)
    (hs : st1.leafSpacing = st2.leafSpacing) (hr : st1.nodeRadius = st2.nodeRadius) (i : ℕ) :
    getNodePosition (init st1) i = getNodePosition (init st2) i :=
  getNodePosition_congr (by rw [init_treeHeight, init_treeHeight, hv])
    (by rw [init_leafSpacing, init_leafSpacing, hs])
    (by rw [init_nodeRadius, init_nodeRadius, hr]) i

theorem init_lineAt_congr {st1 st2 : State} (hv : st1.values = st2.values)
    (hs : st1.leafSpacing = st2.leafSpacing) (hr : st1.nodeRadius = st2.nodeRadius) (i : ℕ) :
    lineAt (init st1) i = lineAt (init st2) i := by
  simp only [lineAt, init_position_congr hv hs hr]

/-- C15 (as stated, refuted): a second run of `init` on the globals that the
first run left, with the same values, spacing and radius, leaves 6 nodes and
4 lines where the first run left 3 nodes and 2 lines. -/
theorem second_run_differs :
    (init sampleState).values = sampleState.values ∧
      (init sampleState).leafSpacing = sampleState.leafSpacing ∧
      (init sampleState).nodeRadius = sampleState.nodeRadius ∧
      (init sampleState).nodes.length = 3 ∧ (init (init sampleState)).nodes.length = 6 ∧
      (init sampleState).lines.length = 2 ∧ (init (init sampleState)).lines.length = 4 ∧
      (init (init sampleState)).nodes ≠ (init sampleState).nodes ∧
      (init (init sampleState)).lines ≠ (init sampleState).lines := by
  have hn1 : (init sampleState).nodes.length = 3 := by decide
  have hn2 : (init (init sampleState)).nodes.length = 6 := by decide
  have hl1 : (init sampleState).lines.length = 2 := by decide
  have hl2 : (init (init sampleState)).lines.length = 4 := by decide
  refine ⟨init_values _, init_leafSpacing _, init_nodeRadius _, hn1, hn2, hl1, hl2, ?_, ?_⟩
  · intro h
    rw [h, hn1] at hn2
    exact absurd hn2 (by decide)
  · intro h
    rw [h, hl1] at hl2
    exact absurd hl2 (by decide)

/-- C15 (amended): `init` is deterministic: two runs that start from
identical values, spacing and nodeRadius and from empty `nodes` and `lines`
yield identical nodes, lines, tree height and window size, whatever the other
globals hold.  `init` appends to the collections that it finds: a second run
on the globals that the first one left appends the same nodes and the same
lines once more. -/
theorem init_deterministic (st1 st2 : State) (hv : st1.values = st2.values)
    (hs : st1.leafSpacing = st2.leafSpacing) (hr : st1.nodeRadius = st2.nodeRadius)
    (hn1 : st1.nodes = []) (hl1 : st1.lines = []) (hn2 : st2.nodes = [])
    (hl2 : st2.lines = []) :
    (init st1).nodes = (init st2).nodes ∧ (init st1).lines = (init st2).lines ∧
      (init st1).treeHeight = (init st2).treeHeight ∧
      (init st1).windowWidth = (init st2).windowWidth ∧
      (init st1).windowHeight = (init st2).windowHeight ∧
      (init (init st1)).nodes = (init st1).nodes ++ (init st1).nodes ∧
      (init (init st1)).lines = (init st1).lines ++ (init st1).lines := by
  refine ⟨?_, ?_, ?_, ?_, ?_, ?_, ?_⟩
  · rw [init_nodes st1, init_nodes st2, hn1, hn2, hv, funext (init_nodeAt_congr hv hs hr)]
  · rw [init_lines st1, init_lines st2, hl1, hl2, hv]
    simp only [init_lineAt_congr hv hs hr]
  · rw [init_treeHeight, init_treeHeight, hv]
  · rw [init_windowWidth_raw, init_windowWidth_raw, hv, hs, init_position_congr hv hs hr]
  · rw [init_windowHeight_raw, init_windowHeight_raw, hv, hs, init_position_congr hv hs hr]
  · have h : ∀ i, nodeAt (init (init st1)) i = nodeAt (init st1) i :=
      init_nodeAt_congr (init_values st1) (init_leafSpacing st1) (init_nodeRadius st1)
    have hfirst : (init st1).nodes =
        (List.range st1.values.length).reverse.map (nodeAt (init st1)) := by
      rw [init_nodes st1, hn1, List.nil_append]
    rw [init_nodes (init st1), funext h, init_values, ← hfirst]
  · have h : ∀ i, lineAt (init (init st1)) i = lineAt (init st1) i :=
      init_lineAt_congr (init_values st1) (init_leafSpacing st1) (init_nodeRadius st1)
    have hfirst : (init st1).lines =
        (List.range (st1.values.length - 1)).reverse.map
          (fun k => lineAt (init st1) (k + 1)) := by
      rw [init_lines st1, hl1, List.nil_append]
    rw [init_lines (init st1), init_values]
    simp only [h]
    rw [← hfirst]

theorem init_deterministic_witness :
    (init sampleState).nodes = (init { sampleState with treeHeight := 7, textSize := 9 }).nodes ∧
      (init sampleState).lines =
        (init { sampleState with treeHeight := 7, textSize := 9 }).lines ∧
      (init sampleState).treeHeight =
        (init { sampleState with treeHeight := 7, textSize := 9 }).treeHeight ∧
      (init sampleState).windowWidth =
        (init { sampleState with treeHeight := 7, textSize := 9 }).windowWidth ∧
      (init sampleState).windowHeight =
        (init { sampleState with treeHeight := 7, textSize := 9 }).windowHeight ∧
      (init (init sampleState)).nodes = (init sampleState).nodes ++ (init sampleState).nodes ∧
      (init (init sampleState)).lines = (init sampleState).lines ++ (init sampleState).lines :=
  init_deterministic sampleState { sampleState with treeHeight := 7, textSize := 9 }
    rfl rfl rfl rfl rfl rfl rfl

/-! ## Separation of the node centres -/

/-- On one level two indices of the list are at least one level step apart
in abscissa. -/
theorem init_x_gap (st : State) (hs : 0 < st.leafSpacing) (hr : 0 < st.nodeRadius)
    (hb : (st.values.length : ℤ) * (st.leafSpacing + st.nodeRadius) ≤ 4194304)
    {i j : ℕ} (hij : i < j) (hlev : levelOf i = levelOf j) (hj : j < st.values.length) :
    (getNodePosition (init st) i).x + ((st.leafSpacing : ℚ) + st.nodeRadius) ≤
      (getNodePosition (init st) j).x := by
  have hi : i < st.values.length := lt_trans hij hj
  rw [init_x st hs hr hb hi, init_x st hs hr hb hj]
  have hslot : slot (floorLog2 st.values.length) i + 2 ≤ slot (floorLog2 st.values.length) j := by
    unfold slot
    rw [hlev]
    have hpos : 1 ≤ 2 ^ (floorLog2 st.values.length - levelOf j) := Nat.one_le_two_pow
    have hmul : 2 ^ (floorLog2 st.values.length - levelOf j) * (2 * i + 5) ≤
        2 ^ (floorLog2 st.values.length - levelOf j) * (2 * j + 3) :=
      Nat.mul_le_mul_left _ (by omega)
    have e : 2 ^ (floorLog2 st.values.length - levelOf j) * (2 * i + 5) =
        2 ^ (floorLog2 st.values.length - levelOf j) * (2 * i + 3) +
          2 * 2 ^ (floorLog2 st.values.length - levelOf j) := by ring
    omega
  have hq : (slot (floorLog2 st.values.length) i : ℚ) + 2 ≤
      slot (floorLog2 st.values.length) j := by exact_mod_cast hslot
  have hstep := half_step_pos hs hr
  nlinarith

/-- Indices of different levels are at least one level step apart in
ordinate. -/
theorem init_y_gap (st : State) (hs : 0 < st.leafSpacing) (hr : 0 < st.nodeRadius)
    (hb : (st.values.length : ℤ) * (st.leafSpacing + st.nodeRadius) ≤ 4194304)
    {i j : ℕ} (hi : i < st.values.length) (hj : j < st.values.length)
    (hlev : levelOf i < levelOf j) :
    (getNodePosition (init st) i).y + ((st.leafSpacing : ℚ) + st.nodeRadius) ≤
      (getNodePosition (init st) j).y := by
  rw [init_y st hs hr hb hi, init_y st hs hr hb hj]
  have hq : (levelOf i : ℚ) + 1 ≤ levelOf j := by exact_mod_cast hlev
  have hstep := half_step_pos hs hr
  nlinarith

/-- Two distinct indices of the list are at least one level step apart: in
abscissa when they are on one level, in ordinate otherwise. -/
theorem init_separation (st : State) (hs : 0 < st.leafSpacing) (hr : 0 < st.nodeRadius)
    (hb : (st.values.length : ℤ) * (st.leafSpacing + st.nodeRadius) ≤ 4194304)
    {i j : ℕ} (hi : i < st.values.length) (hj : j < st.values.length) (hij : i ≠ j) :
    (levelOf i = levelOf j ∧
        (st.leafSpacing : ℚ) + st.nodeRadius ≤
          |(getNodePosition (init st) i).x - (getNodePosition (init st) j).x|) ∨
      (levelOf i ≠ levelOf j ∧
        (st.leafSpacing : ℚ) + st.nodeRadius ≤
          |(getNodePosition (init st) i).y - (getNodePosition (init st) j).y|) := by
  rcases Nat.lt_trichotomy (levelOf i) (levelOf j) with hlt | heq | hgt
  · right
    refine ⟨ne_of_lt hlt, ?_⟩
    have := init_y_gap st hs hr hb hi hj hlt
    rw [le_abs]; right; linarith
  · left
    refine ⟨heq, ?_⟩
    rcases Nat.lt_or_gt_of_ne hij with h | h
    · have := init_x_gap st hs hr hb h heq hj
      rw [le_abs]; right; linarith
    · have := init_x_gap st hs hr hb h heq.symm hi
      rw [le_abs]; left; linarith
  · right
    refine ⟨ne_of_gt hgt, ?_⟩
    have := init_y_gap st hs hr hb hj hi hgt
    rw [le_abs]; left; linarith

/-- The squared distance of two distinct node centres is at least the
square of one level step. -/
theorem init_dist_sq (st : State) (hs : 0 < st.leafSpacing) (hr : 0 < st.nodeRadius)
    (hb : (st.values.length : ℤ) * (st.leafSpacing + st.nodeRadius) ≤ 4194304)
    {i j : ℕ} (hi : i < st.values.length) (hj : j < st.values.length) (hij : i ≠ j) :
    ((st.leafSpacing : ℚ) + st.nodeRadius) ^ 2 ≤
      ((getNodePosition (init st) i).x - (getNodePosition (init st) j).x) ^ 2 +
        ((getNodePosition (init st) i).y - (getNodePosition (init st) j).y) ^ 2 := by
  have hstep := half_step_pos hs hr
  have h0 : (0 : ℚ) ≤ (st.leafSpacing : ℚ) + st.nodeRadius := by linarith
  have hsep := init_separation st hs hr hb hi hj hij
  generalize (getNodePosition (init st) i).x - (getNodePosition (init st) j).x = dx at hsep ⊢
  generalize (getNodePosition (init st) i).y - (getNodePosition (init st) j).y = dy at hsep ⊢
  rcases hsep with ⟨_, h⟩ | ⟨_, h⟩
  · have := sq_le_sq' (by linarith [abs_nonneg dx]) h
    rw [sq_abs] at this
    nlinarith [sq_nonneg dy]
  · have := sq_le_sq' (by linarith [abs_nonneg dy]) h
    rw [sq_abs] at this
    nlinarith [sq_nonneg dx]

/-- A point of two closed discs of radius `r` bounds the squared distance of
their centres by `(2 r)²`; strictly for open discs. -/
theorem centres_close_of_common_point (c1 c2 : Vector2 ℚ) (p : Vector2 ℝ) (d1 d2 : ℝ)
    (h1 : (p.x - (c1.x : ℝ)) ^ 2 + (p.y - (c1.y : ℝ)) ^ 2 = d1)
    (h2 : (p.x - (c2.x : ℝ)) ^ 2 + (p.y - (c2.y : ℝ)) ^ 2 = d2) :
    ((c1.x : ℝ) - c2.x) ^ 2 + ((c1.y : ℝ) - c2.y) ^ 2 ≤ 2 * d1 + 2 * d2 := by
  rw [← h1, ← h2]
  nlinarith [sq_nonneg ((p.x - (c1.x : ℝ)) + (p.x - (c2.x : ℝ))),
    sq_nonneg ((p.y - (c1.y : ℝ)) + (p.y - (c2.y : ℝ)))]

/-- C16 (as stated, refuted): with spacing = nodeRadius = 20 and three
values, the nodes 1 and 2 are centred at (20, 70) and (60, 70), and the point
(40, 70) belongs to both circles of radius 20: they are not disjoint.  With
eight values, spacing `2 ^ 30 - 256` and radius 256 the distinct indices 1
and 2 have the same position, their padding having wrapped to 0.  With three
values, spacing 16777216 and radius 1 the indices 0 and 1, on different
levels, have `y = 1.5` and `y = 16777218`, less than 16777217 apart. -/
theorem circles_touch :
    (touchingState.nodeRadius ≤ touchingState.leafSpacing ∧
      getNodePosition (init touchingState) 1 = ⟨20, 70⟩ ∧
      getNodePosition (init touchingState) 2 = ⟨60, 70⟩ ∧
      InDisc (getNodePosition (init touchingState) 1) touchingState.nodeRadius ⟨40, 70⟩ ∧
      InDisc (getNodePosition (init touchingState) 2) touchingState.nodeRadius ⟨40, 70⟩) ∧
      (0 < overflowState.leafSpacing ∧ 0 < overflowState.nodeRadius ∧
        1 < overflowState.values.length ∧ 2 < overflowState.values.length ∧
        getNodePosition (init overflowState) 1 = getNodePosition (init overflowState) 2) ∧
      (0 < stepState.leafSpacing ∧ 0 < stepState.nodeRadius ∧
        0 < stepState.values.length ∧ 1 < stepState.values.length ∧
        levelOf 0 ≠ levelOf 1 ∧
        ¬ (stepState.leafSpacing : ℚ) + stepState.nodeRadius ≤
          |(getNodePosition (init stepState) 0).y - (getNodePosition (init stepState) 1).y|) := by
  have h1 : getNodePosition (init touchingState) 1 = ⟨20, 70⟩ := by
    rw [Vector2.eq_iff, init_x touchingState (by decide) (by decide) (by decide) (by decide),
      init_y touchingState (by decide) (by decide) (by decide) (by decide)]
    constructor
    · simp [touchingState, State.initial, slot, levelOf, floorLog2, Nat.log]
      norm_num
    · simp [touchingState, State.initial, levelOf, floorLog2, Nat.log]
      norm_num
  have h2 : getNodePosition (init touchingState) 2 = ⟨60, 70⟩ := by
    rw [Vector2.eq_iff, init_x touchingState (by decide) (by decide) (by decide) (by decide),
      init_y touchingState (by decide) (by decide) (by decide) (by decide)]
    constructor
    · simp [touchingState, State.initial, slot, levelOf, floorLog2, Nat.log]
      norm_num
    · simp [touchingState, State.initial, levelOf, floorLog2, Nat.log]
      norm_num
  refine ⟨⟨by decide, h1, h2, ?_, ?_⟩, ⟨by decide, by decide, by decide, by decide, ?_⟩,
    ⟨by decide, by decide, by decide, by decide, ?_, ?_⟩⟩
  · rw [h1]
    norm_num [InDisc, touchingState, State.initial]
  · rw [h2]
    norm_num [InDisc, touchingState, State.initial]
  · rw [Vector2.eq_iff, overflow_x_zero.2.1, overflow_x_zero.2.2]
    exact ⟨rfl, getNodePosition_y_congr _ (by simp [levelOf, floorLog2, Nat.log])⟩
  · simp [levelOf, floorLog2, Nat.log]
  · rw [step_y.1, step_y.2, abs_of_neg (by norm_num)]
    norm_num [stepState, State.initial]

/-- C16 (amended): for every count ≥ 1, spacing > 0 and nodeRadius > 0 with
`count * (spacing + nodeRadius) ≤ 2 ^ 22`, the range in which the layout is
computed without overflow or rounding, and any two distinct indices `i`, `j`
below the count, either they are on one level and
`|x_i - x_j| ≥ spacing + nodeRadius`, or they are on different levels and
`|y_i - y_j| ≥ spacing + nodeRadius`; so distinct indices never share a
position, the open discs of radius nodeRadius around the two centres have no
common point whenever spacing ≥ nodeRadius, and the closed discs have none
whenever spacing > nodeRadius. -/
theorem centres_separated (st : State) (_hv : st.values ≠ []) (hs : 0 < st.leafSpacing)
    (hr : 0 < st.nodeRadius)
    (hb : (st.values.length : ℤ) * (st.leafSpacing + st.nodeRadius) ≤ 4194304)
    (i j : ℕ) (hi : i < st.values.length) (hj : j < st.values.length) (hij : i ≠ j) :
    ((levelOf i = levelOf j ∧
          (st.leafSpacing : ℚ) + st.nodeRadius ≤
            |(getNodePosition (init st) i).x - (getNodePosition (init st) j).x|) ∨
        (levelOf i ≠ levelOf j ∧
          (st.leafSpacing : ℚ) + st.nodeRadius ≤
            |(getNodePosition (init st) i).y - (getNodePosition (init st) j).y|)) ∧
      getNodePosition (init st) i ≠ getNodePosition (init st) j ∧
      (st.nodeRadius ≤ st.leafSpacing → ∀ p : Vector2 ℝ,
        ¬ (InOpenDisc (getNodePosition (init st) i) st.nodeRadius p ∧
          InOpenDisc (getNodePosition (init st) j) st.nodeRadius p)) ∧
      (st.nodeRadius < st.leafSpacing → ∀ p : Vector2 ℝ,
        ¬ (InDisc (getNodePosition (init st) i) st.nodeRadius p ∧
          InDisc (getNodePosition (init st) j) st.nodeRadius p)) := by
  have hsq := init_dist_sq st hs hr hb hi hj hij
  have hsR : (0 : ℝ) < st.leafSpacing := by exact_mod_cast hs
  have hrR : (0 : ℝ) < st.nodeRadius := by exact_mod_cast hr
  have hsqR : ((st.leafSpacing : ℝ) + st.nodeRadius) ^ 2 ≤
      (((getNodePosition (init st) i).x : ℝ) - (getNodePosition (init st) j).x) ^ 2 +
        (((getNodePosition (init st) i).y : ℝ) - (getNodePosition (init st) j).y) ^ 2 := by
    exact_mod_cast hsq
  refine ⟨init_separation st hs hr hb hi hj hij, ?_, ?_, ?_⟩
  · intro heq
    rw [heq] at hsq
    have hstep := half_step_pos hs hr
    nlinarith
  · intro hle p ⟨h1, h2⟩
    have hleR : (st.nodeRadius : ℝ) ≤ st.leafSpacing := by exact_mod_cast hle
    have hc := centres_close_of_common_point (getNodePosition (init st) i)
      (getNodePosition (init st) j) p _ _ rfl rfl
    unfold InOpenDisc at h1 h2
    nlinarith
  · intro hlt p ⟨h1, h2⟩
    have hltR : (st.nodeRadius : ℝ) < st.leafSpacing := by exact_mod_cast hlt
    have hc := centres_close_of_common_point (getNodePosition (init st) i)
      (getNodePosition (init st) j) p _ _ rfl rfl
    unfold InDisc at h1 h2
    nlinarith

theorem centres_separated_witness :
    ((levelOf 1 = levelOf 2 ∧
          (sampleState.leafSpacing : ℚ) + sampleState.nodeRadius ≤
            |(getNodePosition (init sampleState) 1).x -
              (getNodePosition (init sampleState) 2).x|) ∨
        (levelOf 1 ≠ levelOf 2 ∧
          (sampleState.leafSpacing : ℚ) + sampleState.nodeRadius ≤
            |(getNodePosition (init sampleState) 1).y -
              (getNodePosition (init sampleState) 2).y|)) ∧
      getNodePosition (init sampleState) 1 ≠ getNodePosition (init sampleState) 2 ∧
      (sampleState.nodeRadius ≤ sampleState.leafSpacing → ∀ p : Vector2 ℝ,
        ¬ (InOpenDisc (getNodePosition (init sampleState) 1) sampleState.nodeRadius p ∧
          InOpenDisc (getNodePosition (init sampleState) 2) sampleState.nodeRadius p)) ∧
      (sampleState.nodeRadius < sampleState.leafSpacing → ∀ p : Vector2 ℝ,
        ¬ (InDisc (getNodePosition (init sampleState) 1) sampleState.nodeRadius p ∧
          InDisc (getNodePosition (init sampleState) 2) sampleState.nodeRadius p)) :=
  centres_separated sampleState (by decide) (by decide) (by decide) (by decide) 1 2 (by decide)
    (by decide) (by decide)

end TreeIt
